import Mathlib

/-!
# EdgeList2ECL: the ECL graph codec and the edge-list compiler

A shallow embedding of `src/ECLgraph.h` (the binary CSR codec) and of
`src/edgelist2ecl.cpp` (the text edge list to CSR converter), followed by
theorems about them.

Conventions of the embedding:

* a `long` (64 bit) and an `int` (32 bit) are modelled as `Int`; the places
  where the C arithmetic can leave the range wrap explicitly (`wrapInt`,
  `decodeLong`, `encodeLong`);
* a heap buffer (`long*`) is a `List Int`, the null pointer of `eweight` is
  `none`;
* a file is the list of its bytes (binary) or of its characters (text);
* `exit(-1)` of the codec and the `return n` of `main` are `Except` errors;
* the allocator is a parameter `malloc : Nat → Bool` telling whether a request
  of that many bytes is granted; opening a file and the physical transfers
  are taken to succeed.
-/

namespace ECL

instance instDecidableEqExcept {ε α : Type} [DecidableEq ε] [DecidableEq α] :
    DecidableEq (Except ε α)
  | .ok a, .ok b =>
    if h : a = b then isTrue (congrArg Except.ok h)
    else isFalse fun h2 => h (Except.ok.inj h2)
  | .error a, .error b =>
    if h : a = b then isTrue (congrArg Except.error h)
    else isFalse fun h2 => h (Except.error.inj h2)
  | .ok _, .error _ => isFalse fun h => Except.noConfusion h
  | .error _, .ok _ => isFalse fun h => Except.noConfusion h

/-! ## Bytes and the 8-byte encoding of a `long` -/

/-- One byte of a binary file. -/
abbrev Byte := Fin 256

/-- The values of the C type `long` (64-bit two's complement). -/
def isLong (x : Int) : Prop := -(2 : Int) ^ 63 ≤ x ∧ x < (2 : Int) ^ 63

instance (x : Int) : Decidable (isLong x) := by unfold isLong; infer_instance

/-- The unsigned 64-bit pattern of a `long`. -/
def toBits (x : Int) : Nat := (x % (2 : Int) ^ 64).toNat

/-- The eight bytes `fwrite` emits for one `long`, least significant first
(the native byte order of the x86-64 targets of the program). -/
def encodeLong (x : Int) : List Byte :=
  (List.range 8).map fun i => Fin.ofNat (toBits x / 256 ^ i)

/-- The unsigned value of a little-endian byte string. -/
def bytesToNat : List Byte → Nat
  | [] => 0
  | b :: bs => b.val + 256 * bytesToNat bs

/-- The `long` that `fread` stores for eight bytes. -/
def decodeLong (bs : List Byte) : Int :=
  let m := bytesToNat bs
  if m < 2 ^ 63 then (m : Int) else (m : Int) - (2 : Int) ^ 64

/-- The elements `fread(ptr, 8, count, f)` stores: complete 8-byte items only,
at most `count` of them. -/
def readLongs : Nat → List Byte → List Int
  | 0, _ => []
  | n + 1, f =>
    if f.length < 8 then [] else decodeLong (f.take 8) :: readLongs n (f.drop 8)

/-- The call `fread(ptr, sizeof(long), count, f)` on the rest `f` of the
stream: the items stored (their number is the return value `cnt`) and the
rest of the stream afterwards. -/
def fread (count : Nat) (f : List Byte) : List Int × List Byte :=
  (readLongs count f, f.drop (8 * count))

/-- The bytes `fwrite(ptr, sizeof(long), count, f)` appends: the first `count`
items of the buffer. -/
def fwrite (buf : List Int) (count : Nat) : List Byte :=
  (buf.take count).flatMap encodeLong

/-! ## `struct ECLgraph` and the codec (`ECLgraph.h`) -/

/-- The record `struct ECLgraph`. -/
structure ECLgraph where
  nodes : Int
  edges : Int
  nindex : List Int
  nlist : List Int
  eweight : Option (List Int)
  deriving DecidableEq

/-- The `exit(-1)` paths of the codec, named after their messages. -/
inductive CodecError where
  | failedNodes
  | failedEdges
  | countTooLow
  | allocFailed
  | failedIndex
  | failedList
  | failedWeights
  deriving DecidableEq

/-- The size in bytes, as a `size_t`, of a buffer of `n` items of type
`long`. -/
def sizeBytes (n : Int) : Nat := ((n * 8) % (2 : Int) ^ 64).toNat

/-- The function `readECLgraph` on the bytes `f` of the file. The item counts
`nodes + 1` and `edges` passed to `fread` are taken as mathematical integers:
for `nodes ≥ 1` and `edges ≥ 0` the conversion to `size_t` keeps them. -/
def readECLgraph (malloc : Nat → Bool) (f : List Byte) : Except CodecError ECLgraph :=
  let r1 := fread 1 f
  if r1.1.length ≠ 1 then .error .failedNodes else
  let nodes := r1.1.headD 0
  let r2 := fread 1 r1.2
  if r2.1.length ≠ 1 then .error .failedEdges else
  let edges := r2.1.headD 0
  if nodes < 1 ∨ edges < 0 then .error .countTooLow else
  if !(malloc (sizeBytes (nodes + 1)) && malloc (sizeBytes edges) && malloc (sizeBytes edges))
  then .error .allocFailed else
  let r3 := fread (nodes + 1).toNat r2.2
  if (r3.1.length : Int) ≠ nodes + 1 then .error .failedIndex else
  let r4 := fread edges.toNat r3.2
  if (r4.1.length : Int) ≠ edges then .error .failedList else
  let r5 := fread edges.toNat r4.2
  if r5.1.length = 0 then
    .ok { nodes := nodes, edges := edges, nindex := r3.1, nlist := r4.1, eweight := none }
  else if (r5.1.length : Int) ≠ edges then .error .failedWeights
  else
    .ok { nodes := nodes, edges := edges, nindex := r3.1, nlist := r4.1, eweight := some r5.1 }

/-- The function `writeECLgraph`: the bytes of the file it leaves. -/
def writeECLgraph (g : ECLgraph) : Except CodecError (List Byte) :=
  if g.nodes < 1 ∨ g.edges < 0 then .error .countTooLow else
  .ok (fwrite [g.nodes] 1 ++ fwrite [g.edges] 1
    ++ fwrite g.nindex (g.nodes + 1).toNat
    ++ fwrite g.nlist g.edges.toNat
    ++ (match g.eweight with
        | some w => fwrite w g.edges.toNat
        | none => []))

/-! ## The converter (`edgelist2ecl.cpp`) -/

/-- The constant `INT_MAX`. -/
def INT_MAX : Int := 2147483647

/-- The constant `LLONG_MAX`. -/
def LLONG_MAX : Int := 9223372036854775807

/-- The constant `LLONG_MIN`. -/
def LLONG_MIN : Int := -9223372036854775808

/-- Two's complement wrap of a mathematical integer to an `int`. -/
def wrapInt (x : Int) : Int := (x + (2 : Int) ^ 31) % (2 : Int) ^ 32 - (2 : Int) ^ 31

/-- The lines `fgets(line, 1024, f)` returns one after the other: each ends
after a newline, after 1023 characters, or at the end of the file. `cur` is
the current line so far, last character first. -/
def fgetsLines : List Char → List Char → List (List Char)
  | [], cur => if cur.isEmpty then [] else [cur.reverse]
  | c :: cs, cur =>
    if c = '\n' ∨ cur.length + 1 = 1023 then (c :: cur).reverse :: fgetsLines cs []
    else fgetsLines cs (c :: cur)

/-- The C string held by a buffer: the characters before the first NUL. -/
def cstr (s : List Char) : List Char := s.takeWhile fun c => c ≠ '\x00'

/-- The function `is_comment_or_blank`. -/
def is_comment_or_blank (s : List Char) : Bool :=
  match (cstr s).dropWhile fun c => c = ' ' ∨ c = '\t' with
  | [] => true
  | c :: _ => c = '#' ∨ c = '\n' ∨ c = '\r'

/-- The C predicate `isspace` in the "C" locale. -/
def isspace (c : Char) : Bool :=
  c = ' ' ∨ c = '\t' ∨ c = '\n' ∨ c = '\x0b' ∨ c = '\x0c' ∨ c = '\r'

/-- The C predicate `isdigit`. -/
def isdigit (c : Char) : Bool := 48 ≤ c.toNat ∧ c.toNat ≤ 57

/-- The value of a string of decimal digits. -/
def digitsValue (ds : List Char) : Nat :=
  ds.foldl (fun a c => 10 * a + (c.toNat - 48)) 0

/-- The result of a conversion that does not fit a `long long`: the library
stores the nearest bound. -/
def clampLL (x : Int) : Int :=
  if x > LLONG_MAX then LLONG_MAX else if x < LLONG_MIN then LLONG_MIN else x

/-- One `%lld` conversion of `sscanf`: white space is skipped, then an optional
sign and a non-empty run of decimal digits are consumed. The result is the
value and the rest of the string, or `none` when nothing matches. -/
def scanLL (s : List Char) : Option (Int × List Char) :=
  let s1 := s.dropWhile isspace
  let neg : Bool := s1.head? = some '-'
  let s2 := if s1.head? = some '-' ∨ s1.head? = some '+' then s1.tail else s1
  let ds := s2.takeWhile isdigit
  if ds.isEmpty then none
  else
    some (clampLL (if neg then -(digitsValue ds : Int) else (digitsValue ds : Int)),
      s2.dropWhile isdigit)

/-- The call `sscanf(line, "%lld %lld", &u_ll, &v_ll)`: `some (u_ll, v_ll)` when
it returns 2, `none` otherwise. -/
def sscanf (line : List Char) : Option (Int × Int) :=
  match scanLL (cstr line) with
  | none => none
  | some (u, rest) =>
    match scanLL rest with
    | none => none
    | some (v, _) => some (u, v)

/-- The way `main` ends without a graph: `return n`, or an execution the
C standard leaves undefined. -/
inductive Exit where
  | code (n : Nat)
  | undefined
  deriving DecidableEq

/-- The variables of the scan loop: the vector `edges`, `min_id`, `max_id`. -/
structure ScanState where
  edges : List (Int × Int)
  min_id : Int
  max_id : Int
  deriving DecidableEq

/-- One iteration of the scan loop (`main`, lines 45-72) on one line. The
casts `(int)u_ll` and `(int)v_ll` keep the values, which lie in
`0 .. INT_MAX` where they are reached. -/
def scanStep (make_undirected : Bool) (st : ScanState) (line : List Char) :
    Except Exit ScanState :=
  if is_comment_or_blank line then .ok st else
  match sscanf line with
  | none => .ok st
  | some (u_ll, v_ll) =>
    if u_ll < 0 ∨ v_ll < 0 then .error (.code 3)
    else if u_ll > INT_MAX ∨ v_ll > INT_MAX then .error (.code 4)
    else if u_ll = v_ll then .ok st
    else
      .ok { edges := st.edges ++ (u_ll, v_ll) :: (if make_undirected then [(v_ll, u_ll)] else [])
            min_id := min st.min_id (min u_ll v_ll)
            max_id := max st.max_id (max u_ll v_ll) }

/-- The scan loop over the lines of the input. -/
def scanLoop (make_undirected : Bool) : List (List Char) → ScanState → Except Exit ScanState
  | [], st => .ok st
  | line :: rest, st =>
    match scanStep make_undirected st line with
    | .error e => .error e
    | .ok st1 => scanLoop make_undirected rest st1

/-- The order `operator<` of `std::pair<int, int>`, as a non-strict order. -/
def pairLE (a b : Int × Int) : Prop := a.1 < b.1 ∨ (a.1 = b.1 ∧ a.2 ≤ b.2)

instance : DecidableRel pairLE := fun a b => by unfold pairLE; infer_instance

/-- The call `std::sort(edges.begin(), edges.end())`: the sorted arrangement of
the vector, which is unique because pairs that compare equal are identical. -/
def sort (edges : List (Int × Int)) : List (Int × Int) := edges.insertionSort pairLE

/-- The loop of `std::unique`: `prev` is the last element kept. -/
def uniqueAux (prev : Int × Int) : List (Int × Int) → List (Int × Int)
  | [] => []
  | b :: t => if prev = b then uniqueAux prev t else b :: uniqueAux b t

/-- The call `edges.erase(std::unique(...), edges.end())`: of every run of
equal neighbours the first is kept. -/
def unique : List (Int × Int) → List (Int × Int)
  | [] => []
  | a :: t => a :: uniqueAux a t

/-- The call `calloc(nmemb, size)`. -/
def calloc (malloc : Nat → Bool) (nmemb size : Nat) : Bool :=
  if nmemb * size < 2 ^ 64 then malloc (nmemb * size) else false

/-- The degree count (`main`, lines 137-144). -/
def degreeCount (nodes : Int) : List (Int × Int) → List Int → Except Exit (List Int)
  | [], nindex => .ok nindex
  | pr :: rest, nindex =>
    if pr.1 < 0 ∨ pr.1 ≥ nodes then .error (.code 9)
    else degreeCount nodes rest
      (nindex.set (pr.1 + 1).toNat (nindex.getD (pr.1 + 1).toNat 0 + 1))

/-- The prefix sum (`main`, lines 147-149); iteration `k` is `i = k + 1`. -/
def prefixSum (nodes : Int) (nindex : List Int) : List Int :=
  (List.range nodes.toNat).foldl
    (fun a k => a.set (k + 1) (a.getD (k + 1) 0 + a.getD k 0)) nindex

/-- The fill of the adjacency (`main`, lines 155-164), on the cursors `cur` and
the buffer `nlist`. -/
def fillAdjacency (nodes : Int) :
    List (Int × Int) → List Int → List Int → Except Exit (List Int)
  | [], _, nlist => .ok nlist
  | pr :: rest, cur, nlist =>
    if pr.2 < 0 ∨ pr.2 ≥ nodes then .error (.code 10)
    else
      let pos := cur.getD pr.1.toNat 0
      fillAdjacency nodes rest (cur.set pr.1.toNat (pos + 1)) (nlist.set pos.toNat pr.2)

/-- The part of `main` from the sort to the fill of the adjacency (lines
95-164), on the vector `edges` and on `max_id`: the graph handed to the
codec. -/
def buildCSR (malloc : Nat → Bool) (edges0 : List (Int × Int)) (max_id : Int) :
    Except Exit ECLgraph :=
  let edges := unique (sort edges0)
  let nodes := wrapInt (max_id + 1)
  let e_ll : Int := edges.length
  if e_ll > INT_MAX then .error (.code 7) else
  let e := e_ll
  let nmemb : Nat := (toBits nodes + 1) % 2 ^ 64
  if !(calloc malloc nmemb 8 && malloc (sizeBytes e)) then .error (.code 8) else
  match degreeCount nodes edges (List.replicate nmemb 0) with
  | .error x => .error x
  | .ok counts =>
    if nodes = INT_MAX then .error .undefined else
    let nindex := prefixSum nodes counts
    let cur := nindex.take nodes.toNat
    match fillAdjacency nodes edges cur (List.replicate e.toNat 0) with
    | .error x => .error x
    | .ok nlist =>
      .ok { nodes := nodes, edges := e, nindex := nindex, nlist := nlist, eweight := none }

/-- The part of `main` after the scan, up to the call of `writeECLgraph`
(lines 75-164). The loop `for (int i = 1; i <= nodes; i++)` of the prefix sum
overflows `i` when `nodes` is `INT_MAX`; that run is `undefined`. -/
def buildGraph (malloc : Nat → Bool) (st : ScanState) : Except Exit ECLgraph :=
  if st.edges.isEmpty then .error (.code 5) else
  let st1 : ScanState :=
    if st.min_id = 1 then
      { edges := st.edges.map fun e => (e.1 - 1, e.2 - 1)
        max_id := st.max_id - 1
        min_id := 0 }
    else st
  if st1.min_id < 0 then .error (.code 6) else
  buildCSR malloc st1.edges st1.max_id

/-- The converter up to the graph it hands to `writeECLgraph`: `input` is the
text of the edge list, `make_undirected` the option `--undirected`. -/
def compile (malloc : Nat → Bool) (input : List Char) (make_undirected : Bool) :
    Except Exit ECLgraph :=
  match scanLoop make_undirected (fgetsLines input [])
      { edges := [], min_id := INT_MAX, max_id := -1 } with
  | .error x => .error x
  | .ok st => buildGraph malloc st

/-- The function `main` on an input file that opens: the bytes of the output
file, or the way the run ends without one (`exit(-1)` of the codec is exit
status 255). -/
def main (malloc : Nat → Bool) (input : List Char) (make_undirected : Bool) :
    Except Exit (List Byte) :=
  match compile malloc input make_undirected with
  | .error x => .error x
  | .ok g =>
    match writeECLgraph g with
    | .error _ => .error (.code 255)
    | .ok bytes => .ok bytes

/-! ## Notions used by the statements -/

/-- The graphs of the data model: counts in range and buffers of the declared
lengths. -/
def ECLgraph.Valid (g : ECLgraph) : Prop :=
  1 ≤ g.nodes ∧ 0 ≤ g.edges ∧ (g.nindex.length : Int) = g.nodes + 1 ∧
    (g.nlist.length : Int) = g.edges ∧ ∀ w ∈ g.eweight, (w.length : Int) = g.edges

instance (g : ECLgraph) : Decidable g.Valid := by unfold ECLgraph.Valid; infer_instance

/-- Every field and every buffer item is a value of the type `long`. -/
def ECLgraph.WellTyped (g : ECLgraph) : Prop :=
  isLong g.nodes ∧ isLong g.edges ∧ (∀ x ∈ g.nindex, isLong x) ∧
    (∀ x ∈ g.nlist, isLong x) ∧ ∀ w ∈ g.eweight, ∀ x ∈ w, isLong x

instance (g : ECLgraph) : Decidable g.WellTyped := by unfold ECLgraph.WellTyped; infer_instance

/-- The bytes the codec lays down for a graph: the two counts, the offsets, the
adjacency, and the weights when there are some. -/
def layout (g : ECLgraph) : List Byte :=
  encodeLong g.nodes ++ encodeLong g.edges ++ g.nindex.flatMap encodeLong
    ++ g.nlist.flatMap encodeLong
    ++ (match g.eweight with
        | some w => w.flatMap encodeLong
        | none => [])

/-- The codec round trip: `readECLgraph` on the file `writeECLgraph` leaves. -/
def roundTrip (malloc : Nat → Bool) (g : ECLgraph) : Except CodecError ECLgraph :=
  match writeECLgraph g with
  | .error e => .error e
  | .ok bytes => readECLgraph malloc bytes

/-- The number of edges of source below `i`. -/
def countBelow (E : List (Int × Int)) (i : Int) : Int :=
  (E.countP fun p => decide (p.1 < i) : Nat)

/-- The number of edges of source `i`. -/
def countAt (E : List (Int × Int)) (i : Int) : Int :=
  (E.countP fun p => decide (p.1 = i) : Nat)

/-- The strict order `operator<` of `std::pair<int, int>`. -/
def pairLT (a b : Int × Int) : Prop := a.1 < b.1 ∨ (a.1 = b.1 ∧ a.2 < b.2)

instance : DecidableRel pairLT := fun a b => by unfold pairLT; infer_instance

instance : IsTotal (Int × Int) pairLE := ⟨fun a b => by unfold pairLE; omega⟩

instance : IsTrans (Int × Int) pairLE := ⟨fun a b c => by unfold pairLE; omega⟩

instance : IsAntisymm (Int × Int) pairLE :=
  ⟨fun a b h1 h2 => by
    unfold pairLE at h1 h2
    exact Prod.ext (by omega) (by omega)⟩

/-- What one line yields: the two integers `sscanf` stores, when the line is
neither a comment nor blank and `sscanf` returns 2. -/
def parseLine (line : List Char) : Option (Int × Int) :=
  if is_comment_or_blank line then none else sscanf line

/-- The pairs the lines of an input yield, in the order of the lines. -/
def parsedPairs (input : List Char) : List (Int × Int) :=
  (fgetsLines input []).filterMap parseLine

/-- A pair that ends the run: an id below zero or above `INT_MAX`. -/
def isFatal (p : Int × Int) : Prop := p.1 < 0 ∨ p.2 < 0 ∨ p.1 > INT_MAX ∨ p.2 > INT_MAX

instance (p : Int × Int) : Decidable (isFatal p) := by unfold isFatal; infer_instance

/-- The pairs that are not self-loops. -/
def dropLoops (pairs : List (Int × Int)) : List (Int × Int) :=
  pairs.filter fun p => decide (p.1 ≠ p.2)

/-- The accepted pairs of an input: the pairs of its lines that are not
self-loops. -/
def acceptedPairs (input : List Char) : List (Int × Int) := dropLoops (parsedPairs input)

/-- The working set for a list of accepted pairs: each pair, followed by its
reverse when the option is on. -/
def workingSet (make_undirected : Bool) (A : List (Int × Int)) : List (Int × Int) :=
  A.flatMap fun p => p :: (if make_undirected then [(p.2, p.1)] else [])

/-- The value of `min_id` after the pairs `A`, from the value `m` before. -/
def foldMin (m : Int) (A : List (Int × Int)) : Int :=
  A.foldl (fun m p => min m (min p.1 p.2)) m

/-- The value of `max_id` after the pairs `A`, from the value `m` before. -/
def foldMax (m : Int) (A : List (Int × Int)) : Int :=
  A.foldl (fun m p => max m (max p.1 p.2)) m

/-- The least id of the pairs `A` is `m`. -/
def HasMinId (A : List (Int × Int)) (m : Int) : Prop :=
  (∀ p ∈ A, m ≤ p.1 ∧ m ≤ p.2) ∧ ∃ p ∈ A, p.1 = m ∨ p.2 = m

instance (A : List (Int × Int)) (m : Int) : Decidable (HasMinId A m) := by
  unfold HasMinId; infer_instance

/-- The amount the re-basing subtracts from every id: 1 when the least id of
the accepted pairs is 1, and 0 otherwise. -/
def rebaseShift (A : List (Int × Int)) : Int := if HasMinId A 1 then 1 else 0

/-- The pairs with every id decreased by `r`. -/
def shiftDown (r : Int) (E : List (Int × Int)) : List (Int × Int) :=
  E.map fun e => (e.1 - r, e.2 - r)

/-- The reference edge list of an input: the accepted pairs, with their
reverses when the option is on, re-based, sorted by (source, destination),
duplicates removed. -/
def referenceEdges (input : List Char) (make_undirected : Bool) : List (Int × Int) :=
  ((shiftDown (rebaseShift (acceptedPairs input))
      (workingSet make_undirected (acceptedPairs input))).insertionSort pairLE).dedup

/-- The entry `offsets[i]` of a graph, as a position. -/
def offsetAt (g : ECLgraph) (i : Nat) : Nat := (g.nindex.getD i 0).toNat

/-- The neighbour range of node `i`: `adjacency[offsets[i] .. offsets[i+1])`. -/
def neighbours (g : ECLgraph) (i : Nat) : List Int :=
  (g.nlist.drop (offsetAt g i)).take (offsetAt g (i + 1) - offsetAt g i)

/-- The graph `g` is the CSR form, on `n` nodes and without weights, of the
edge list `S`: the offsets count the edges of smaller source and the adjacency
lists the destinations in the order of `S`. -/
def IsCSR (g : ECLgraph) (n : Nat) (S : List (Int × Int)) : Prop :=
  g.nodes = n ∧ g.edges = S.length ∧ g.nindex.length = n + 1 ∧
    (∀ i : Nat, i ≤ n → g.nindex.getD i 0 = countBelow S i) ∧
    g.nlist = S.map Prod.snd ∧ g.eweight = none

/-- The vector `edges` of `main` after `std::unique`, for an input that passes
the scan: the working set, re-based, sorted, neighbours that are equal
merged. -/
def finalEdges (input : List Char) (make_undirected : Bool) : List (Int × Int) :=
  unique (sort (shiftDown (rebaseShift (acceptedPairs input))
    (workingSet make_undirected (acceptedPairs input))))

/-- All the pairs `(i, adjacency[k])` of a graph, node after node. -/
def edgePairs (g : ECLgraph) : List (Int × Int) :=
  (List.range g.nodes.toNat).flatMap fun i => (neighbours g i).map fun d => ((i : Int), d)

/-- The pairs with every id increased by 1. -/
def shiftUp (E : List (Int × Int)) : List (Int × Int) :=
  E.map fun e => (e.1 + 1, e.2 + 1)

/-- The re-basing (`main`, lines 81-88) on the variables the scan leaves. -/
def rebased (st : ScanState) : ScanState :=
  if st.min_id = 1 then
    { edges := st.edges.map fun e => (e.1 - 1, e.2 - 1)
      max_id := st.max_id - 1
      min_id := 0 }
  else st

/-- The fill of the adjacency (`main`, lines 155-164) with a record of its
writes: the positions `pos` in the order they are written, the cursors at the
end, and the buffer at the end. -/
def fillTrace (nodes : Int) :
    List (Int × Int) → List Int → List Int → Except Exit (List Int × List Int × List Int)
  | [], cur, nlist => .ok ([], cur, nlist)
  | pr :: rest, cur, nlist =>
    if pr.2 < 0 ∨ pr.2 ≥ nodes then .error (.code 10)
    else
      let pos := cur.getD pr.1.toNat 0
      match fillTrace nodes rest (cur.set pr.1.toNat (pos + 1)) (nlist.set pos.toNat pr.2) with
      | .error x => .error x
      | .ok (ps, c, l) => .ok (pos :: ps, c, l)

/-- The variables the scan loop leaves for an input none of whose lines is
fatal. -/
def scanned (input : List Char) (make_undirected : Bool) : ScanState :=
  { edges := workingSet make_undirected (acceptedPairs input)
    min_id := foldMin INT_MAX (acceptedPairs input)
    max_id := foldMax (-1) (acceptedPairs input) }

/-- The pairs of an edge list in which every line `u v` is followed by the
line `v u`. -/
def withReversed (l : List (Int × Int)) : List (Int × Int) :=
  l.flatMap fun p => [p, (p.2, p.1)]

/-! ## Theorems -/

theorem encodeLong_length (x : Int) : (encodeLong x).length = 8 := by
  simp [encodeLong]

theorem bytesToNat_encodeLong (x : Int) : bytesToNat (encodeLong x) = toBits x := by
  have h : toBits x < 2 ^ 64 := by
    unfold toBits
    have := Int.emod_lt_of_pos x (show (0 : Int) < 2 ^ 64 by norm_num)
    have := Int.emod_nonneg x (show ((2 : Int) ^ 64) ≠ 0 by norm_num)
    omega
  simp [encodeLong, List.range_succ, bytesToNat, Fin.ofNat]
  omega

theorem decodeLong_encodeLong (x : Int) (hx : isLong x) : decodeLong (encodeLong x) = x := by
  unfold decodeLong
  simp only [bytesToNat_encodeLong]
  unfold isLong at hx
  unfold toBits
  have h1 := Int.emod_lt_of_pos x (show (0 : Int) < 2 ^ 64 by norm_num)
  have h2 := Int.emod_nonneg x (show ((2 : Int) ^ 64) ≠ 0 by norm_num)
  split <;> omega

theorem flatMap_encodeLong_length (l : List Int) :
    (l.flatMap encodeLong).length = 8 * l.length := by
  induction l with
  | nil => rfl
  | cons a t ih => simp [List.flatMap_cons, encodeLong_length, ih]; omega

theorem readLongs_encode (l : List Int) (hl : ∀ x ∈ l, isLong x) (k : Nat) (rest : List Byte) :
    readLongs (l.length + k) (l.flatMap encodeLong ++ rest) = l ++ readLongs k rest := by
  induction l with
  | nil => simp
  | cons a t ih =>
    have e1 : (a :: t).length + k = (t.length + k) + 1 := by simp; omega
    have e2 : ¬ ((encodeLong a).length + ((t.flatMap encodeLong).length + rest.length) < 8) := by
      rw [encodeLong_length]; omega
    rw [e1, readLongs]
    simp only [List.flatMap_cons, List.append_assoc, List.length_append, e2, if_false]
    rw [List.take_left' (encodeLong_length a), List.drop_left' (encodeLong_length a),
      decodeLong_encodeLong a (hl a (by simp)), ih (fun x hx => hl x (by simp [hx]))]
    rfl

theorem drop_encode (l : List Int) (rest : List Byte) :
    (l.flatMap encodeLong ++ rest).drop (8 * l.length) = rest :=
  List.drop_left' (flatMap_encodeLong_length l)

theorem fread_encode (l : List Int) (hl : ∀ x ∈ l, isLong x) (rest : List Byte) :
    fread l.length (l.flatMap encodeLong ++ rest) = (l, rest) := by
  unfold fread
  have h := readLongs_encode l hl 0 rest
  simp only [Nat.add_zero] at h
  rw [h, drop_encode]
  simp [readLongs]

theorem fwrite_all (l : List Int) (n : Nat) (h : l.length = n) :
    fwrite l n = l.flatMap encodeLong := by
  unfold fwrite
  rw [← h, List.take_length]

theorem readLongs_nil (n : Nat) : readLongs n [] = [] := by
  cases n <;> simp [readLongs]

theorem writeECLgraph_eq_layout (g : ECLgraph) (hv : g.Valid) :
    writeECLgraph g = .ok (layout g) := by
  obtain ⟨hn, he, hi, hl, hw⟩ := hv
  unfold writeECLgraph layout
  rw [if_neg (by omega)]
  rw [fwrite_all g.nindex _ (by omega), fwrite_all g.nlist _ (by omega)]
  have e1 : ∀ x : Int, fwrite [x] 1 = encodeLong x := by
    intro x; simp [fwrite]
  rw [e1, e1]
  cases hw2 : g.eweight with
  | none => rfl
  | some w =>
    have := hw w (by simp [hw2])
    simp only
    rw [fwrite_all w _ (by omega)]

theorem readECLgraph_layout (malloc : Nat → Bool) (g : ECLgraph) (hv : g.Valid)
    (ht : g.WellTyped) (hm1 : malloc (sizeBytes (g.nodes + 1)) = true)
    (hm2 : malloc (sizeBytes g.edges) = true) :
    readECLgraph malloc (layout g)
      = .ok { g with eweight := if g.edges = 0 then none else g.eweight } := by
  obtain ⟨hn, he, hi, hl, hw⟩ := hv
  obtain ⟨tn, te, ti, tl, tw⟩ := ht
  have s1 : ∀ (x : Int) (hx : isLong x) (rest : List Byte),
      fread 1 (encodeLong x ++ rest) = ([x], rest) := by
    intro x hx rest
    have := fread_encode [x] (by simpa using hx) rest
    simpa using this
  have hi2 : (g.nodes + 1).toNat = g.nindex.length := by omega
  have hl2 : g.edges.toNat = g.nlist.length := by omega
  unfold readECLgraph layout
  simp only [List.append_assoc]
  rw [s1 g.nodes tn]
  simp only [List.length_singleton, ne_eq, not_true_eq_false, if_false, List.headD_cons]
  rw [s1 g.edges te]
  simp only [List.length_singleton, ne_eq, not_true_eq_false, if_false, List.headD_cons]
  rw [if_neg (by omega), hm1, hm2]
  simp only [Bool.and_self, Bool.not_true, Bool.false_eq_true, if_false]
  rw [hi2, fread_encode g.nindex ti]
  simp only
  rw [if_neg (by omega), hl2, fread_encode g.nlist tl]
  simp only
  rw [if_neg (by omega)]
  cases hw2 : g.eweight with
  | none =>
    simp [fread, readLongs_nil]
  | some w =>
    have hwl := hw w (by simp [hw2])
    have twl := tw w (by simp [hw2])
    have hw3 : g.nlist.length = w.length := by omega
    simp only
    rw [hw3]
    have := fread_encode w twl []
    rw [List.append_nil] at this
    rw [this]
    simp only
    by_cases h0 : g.edges = 0
    · have : w.length = 0 := by omega
      simp [h0, this]
    · have : w.length ≠ 0 := by omega
      rw [if_neg this, if_neg (by omega), if_neg h0]

theorem layout_length (g : ECLgraph) :
    (layout g).length = 8 * (2 + g.nindex.length + g.nlist.length
      + (match g.eweight with
         | some w => w.length
         | none => 0)) := by
  unfold layout
  cases g.eweight <;>
    simp only [List.length_append, encodeLong_length, flatMap_encodeLong_length,
      List.length_nil] <;> omega

theorem fread_one (f : List Byte) (h : 8 ≤ f.length) :
    fread 1 f = ([decodeLong (f.take 8)], f.drop 8) := by
  simp [fread, readLongs, h]

/-- C1 (as stated, refuted): a valid graph with no edge and a present, empty
weight buffer is written and read back with the weights absent. -/
theorem roundTrip_loses_empty_weights :
    ECLgraph.Valid ⟨1, 0, [0, 0], [], some []⟩ ∧
    ECLgraph.WellTyped ⟨1, 0, [0, 0], [], some []⟩ ∧
    roundTrip (fun _ => true) ⟨1, 0, [0, 0], [], some []⟩
      = .ok ⟨1, 0, [0, 0], [], none⟩ ∧
    roundTrip (fun _ => true) ⟨1, 0, [0, 0], [], some []⟩
      ≠ .ok ⟨1, 0, [0, 0], [], some []⟩ := by
  decide

/-- C1 (amended): for every valid graph whose fields are `long` values, when
the allocator grants the buffers, reading back the written file succeeds and
returns the same counts, offsets and adjacency; the weights come back as they
were when there is at least one edge, and come back absent when there is none. -/
theorem roundTrip_eq (malloc : Nat → Bool) (g : ECLgraph) (hv : g.Valid)
    (ht : g.WellTyped) (hm1 : malloc (sizeBytes (g.nodes + 1)) = true)
    (hm2 : malloc (sizeBytes g.edges) = true) :
    roundTrip malloc g
      = .ok { g with eweight := if g.edges = 0 then none else g.eweight } := by
  unfold roundTrip
  rw [writeECLgraph_eq_layout g hv]
  exact readECLgraph_layout malloc g hv ht hm1 hm2

theorem roundTrip_eq_witness :
    ECLgraph.Valid ⟨2, 1, [0, 1, 1], [1], some [-7]⟩ ∧
    ECLgraph.WellTyped ⟨2, 1, [0, 1, 1], [1], some [-7]⟩ ∧
    roundTrip (fun _ => true) ⟨2, 1, [0, 1, 1], [1], some [-7]⟩
      = .ok ⟨2, 1, [0, 1, 1], [1], some [-7]⟩ :=
  ⟨by decide, by decide,
    roundTrip_eq (fun _ => true) ⟨2, 1, [0, 1, 1], [1], some [-7]⟩ (by decide) (by decide)
      rfl rfl⟩

/-- C9: for every graph with `nodes ≥ 1`, `edges ≥ 0` and buffers of the
declared lengths, `writeECLgraph` succeeds and the file is exactly the 8-byte
items of the two counts, the offsets, the adjacency and, when present, the
weights, in this order; its length is `8 * (nodes + edges + 3)` without
weights and `8 * (nodes + 2 * edges + 3)` with them. -/
theorem writeECLgraph_layout (g : ECLgraph) (hv : g.Valid) :
    writeECLgraph g = .ok (layout g) ∧ (∀ x, (encodeLong x).length = 8) ∧
    (g.eweight = none → ((layout g).length : Int) = 8 * (g.nodes + g.edges + 3)) ∧
    (g.eweight ≠ none → ((layout g).length : Int) = 8 * (g.nodes + 2 * g.edges + 3)) := by
  refine ⟨writeECLgraph_eq_layout g hv, encodeLong_length, ?_, ?_⟩
  · intro h
    obtain ⟨_, _, hi, hl, _⟩ := hv
    rw [layout_length, h]
    push_cast
    omega
  · intro h
    obtain ⟨_, _, hi, hl, hw⟩ := hv
    rw [layout_length]
    cases hw2 : g.eweight with
    | none => exact absurd hw2 h
    | some w =>
      have := hw w (by simp [hw2])
      push_cast
      omega

theorem writeECLgraph_layout_witness :
    ECLgraph.Valid ⟨2, 1, [0, 1, 1], [1], some [-7]⟩ ∧
    writeECLgraph ⟨2, 1, [0, 1, 1], [1], some [-7]⟩
      = .ok (layout ⟨2, 1, [0, 1, 1], [1], some [-7]⟩) ∧
    (layout ⟨2, 1, [0, 1, 1], [1], some [-7]⟩).length = 56 :=
  ⟨by decide, (writeECLgraph_layout ⟨2, 1, [0, 1, 1], [1], some [-7]⟩ (by decide)).1,
    by decide⟩

/-- C10: on a file of at least 16 bytes, when the first two items decode to
`nodes < 1` or `edges < 0`, `readECLgraph` ends with the count error whatever
follows and whatever the allocator would answer; when `nodes ≥ 1` and
`edges ≥ 0` it never ends with the count error. -/
theorem readECLgraph_counts (f : List Byte) (h16 : 16 ≤ f.length) :
    ((decodeLong (f.take 8) < 1 ∨ decodeLong ((f.drop 8).take 8) < 0) →
      ∀ malloc, readECLgraph malloc f = .error .countTooLow) ∧
    ((1 ≤ decodeLong (f.take 8) ∧ 0 ≤ decodeLong ((f.drop 8).take 8)) →
      ∀ malloc, readECLgraph malloc f ≠ .error .countTooLow) := by
  have h8 : 8 ≤ (f.drop 8).length := by simp; omega
  constructor
  · intro h malloc
    unfold readECLgraph
    simp only [fread_one f (by omega), fread_one _ h8, List.length_singleton, ne_eq,
      not_true_eq_false, if_false, List.headD_cons]
    rw [if_pos h]
  · intro h malloc
    unfold readECLgraph
    simp only [fread_one f (by omega), fread_one _ h8, List.length_singleton, ne_eq,
      not_true_eq_false, if_false, List.headD_cons]
    rw [if_neg (by omega)]
    repeat' split
    all_goals simp

theorem readECLgraph_counts_witness :
    16 ≤ (encodeLong 0 ++ encodeLong 5 ++ encodeLong 1).length ∧
    ∀ malloc, readECLgraph malloc (encodeLong 0 ++ encodeLong 5 ++ encodeLong 1)
      = .error .countTooLow :=
  ⟨by decide,
    (readECLgraph_counts (encodeLong 0 ++ encodeLong 5 ++ encodeLong 1) (by decide)).1
      (by decide)⟩

theorem getD_set (l : List Int) (i j : Nat) (v : Int) (h : i < l.length) :
    (l.set i v).getD j 0 = if j = i then v else l.getD j 0 := by
  simp only [List.getD_eq_getElem?_getD, List.getElem?_set, h, if_true]
  by_cases hij : i = j
  · subst hij; simp
  · have : ¬ j = i := fun e => hij e.symm
    simp [hij, this]

theorem getD_take (l : List Int) (n i : Nat) (h : i < n) :
    (l.take n).getD i 0 = l.getD i 0 := by
  simp [List.getD_eq_getElem?_getD, List.getElem?_take, h]

theorem countBelow_nil (i : Int) : countBelow [] i = 0 := rfl

theorem countAt_nil (i : Int) : countAt [] i = 0 := rfl

theorem countBelow_cons (p : Int × Int) (E : List (Int × Int)) (i : Int) :
    countBelow (p :: E) i = countBelow E i + if p.1 < i then 1 else 0 := by
  unfold countBelow
  rw [List.countP_cons]
  by_cases h : p.1 < i <;> simp [h]

theorem countAt_cons (p : Int × Int) (E : List (Int × Int)) (i : Int) :
    countAt (p :: E) i = countAt E i + if p.1 = i then 1 else 0 := by
  unfold countAt
  rw [List.countP_cons]
  by_cases h : p.1 = i <;> simp [h]

theorem countBelow_append (P R : List (Int × Int)) (i : Int) :
    countBelow (P ++ R) i = countBelow P i + countBelow R i := by
  unfold countBelow
  rw [List.countP_append]
  push_cast
  rfl

theorem countAt_append (P R : List (Int × Int)) (i : Int) :
    countAt (P ++ R) i = countAt P i + countAt R i := by
  unfold countAt
  rw [List.countP_append]
  push_cast
  rfl

theorem countBelow_succ (E : List (Int × Int)) (i : Int) :
    countBelow E (i + 1) = countBelow E i + countAt E i := by
  induction E with
  | nil => rfl
  | cons p t ih =>
    rw [countBelow_cons, countBelow_cons, countAt_cons, ih]
    by_cases h1 : p.1 < i
    · have h2 : p.1 < i + 1 := by omega
      have h3 : ¬ p.1 = i := by omega
      simp only [h1, h2, h3, if_true, if_false]
      omega
    · by_cases h3 : p.1 = i
      · have h2 : p.1 < i + 1 := by omega
        simp only [h1, h2, h3, if_true, if_false]
        omega
      · have h2 : ¬ p.1 < i + 1 := by omega
        simp only [h1, h2, h3, if_false]
        omega

theorem countBelow_eq_zero (E : List (Int × Int)) (i : Int) (h : ∀ p ∈ E, i ≤ p.1) :
    countBelow E i = 0 := by
  induction E with
  | nil => rfl
  | cons p t ih =>
    rw [countBelow_cons, ih (fun q hq => h q (by simp [hq]))]
    have := h p (by simp)
    rw [if_neg (by omega)]
    rfl

theorem countBelow_eq_length (E : List (Int × Int)) (i : Int) (h : ∀ p ∈ E, p.1 < i) :
    countBelow E i = E.length := by
  induction E with
  | nil => rfl
  | cons p t ih =>
    rw [countBelow_cons, ih (fun q hq => h q (by simp [hq]))]
    have := h p (by simp)
    rw [if_pos this]
    simp

/-- The degree count succeeds on sources in range and adds to cell `i` the
number of edges of source `i - 1`. -/
theorem degreeCount_ok (n : Nat) (E : List (Int × Int))
    (hE : ∀ p ∈ E, 0 ≤ p.1 ∧ p.1 < n) (a : List Int) (ha : a.length = n + 1) :
    ∃ b, degreeCount n E a = .ok b ∧ b.length = n + 1 ∧
      ∀ i : Nat, b.getD (i + 1) 0 = a.getD (i + 1) 0 + countAt E i ∧ b.getD 0 0 = a.getD 0 0 := by
  induction E generalizing a with
  | nil => exact ⟨a, rfl, ha, fun i => by simp [countAt_nil]⟩
  | cons p t ih =>
    obtain ⟨h0, h1⟩ := hE p (by simp)
    have hj : (p.1 + 1).toNat < a.length := by omega
    obtain ⟨b, hb, hlen, hget⟩ := ih (fun q hq => hE q (by simp [hq]))
      (a.set (p.1 + 1).toNat (a.getD (p.1 + 1).toNat 0 + 1)) (by simp [ha])
    refine ⟨b, ?_, hlen, ?_⟩
    · rw [degreeCount, if_neg (by omega)]
      exact hb
    · intro i
      obtain ⟨hg1, hg0⟩ := hget i
      rw [hg1, hg0, getD_set _ _ _ _ hj, getD_set _ _ _ _ hj, countAt_cons]
      have e0 : ¬ (0 = (p.1 + 1).toNat) := by omega
      rw [if_neg e0]
      refine ⟨?_, rfl⟩
      by_cases hi : p.1 = i
      · have : i + 1 = (p.1 + 1).toNat := by omega
        rw [if_pos this, if_pos hi, ← this]
        omega
      · have : ¬ i + 1 = (p.1 + 1).toNat := by omega
        rw [if_neg this, if_neg hi]
        omega

/-- After `k` iterations of the prefix sum the cells up to `k` hold the number
of edges of smaller source, the other cells are untouched. -/
theorem prefixSum_steps (E : List (Int × Int)) (hE : ∀ p ∈ E, 0 ≤ p.1) (n : Nat)
    (a : List Int) (ha : a.length = n + 1) (h0 : a.getD 0 0 = 0)
    (hs : ∀ j : Nat, a.getD (j + 1) 0 = countAt E j) (k : Nat) (hk : k ≤ n) :
    ((List.range k).foldl (fun a k => a.set (k + 1) (a.getD (k + 1) 0 + a.getD k 0)) a).length
        = n + 1 ∧
    ∀ i : Nat,
      ((List.range k).foldl
        (fun a k => a.set (k + 1) (a.getD (k + 1) 0 + a.getD k 0)) a).getD i 0
        = if i ≤ k then countBelow E i else a.getD i 0 := by
  induction k with
  | zero =>
    refine ⟨by simpa using ha, fun i => ?_⟩
    simp only [List.range_zero, List.foldl_nil]
    by_cases hi : i ≤ 0
    · have : i = 0 := by omega
      subst this
      rw [if_pos hi, h0, countBelow_eq_zero]
      intro p hp
      simpa using hE p hp
    · rw [if_neg hi]
  | succ k ih =>
    obtain ⟨hlen, hget⟩ := ih (by omega)
    rw [List.range_succ, List.foldl_append]
    simp only [List.foldl_cons, List.foldl_nil]
    refine ⟨by rw [List.length_set]; exact hlen, fun i => ?_⟩
    rw [getD_set _ _ _ _ (by omega), hget (k + 1), hget k, if_neg (show ¬ k + 1 ≤ k by omega),
      if_pos (le_refl k), hs k]
    by_cases hi : i = k + 1
    · subst hi
      rw [if_pos rfl, if_pos (le_refl _)]
      push_cast
      rw [countBelow_succ]
      omega
    · rw [if_neg hi, hget i]
      by_cases hik : i ≤ k
      · rw [if_pos hik, if_pos (show i ≤ k + 1 by omega)]
      · rw [if_neg hik, if_neg (show ¬ i ≤ k + 1 by omega)]

theorem take_succ_set (l : List Int) (k : Nat) (v : Int) (h : k < l.length) :
    (l.set k v).take (k + 1) = l.take k ++ [v] := by
  rw [List.set_eq_take_append_cons_drop, if_pos h]
  have hk : (l.take k).length = k := by simp; omega
  rw [List.take_append_eq_append_take, hk, List.take_of_length_le (by omega)]
  simp

/-- The fill pass on a list sorted by source writes the destinations in the
order of the list. -/
theorem fillAdjacency_ok (n : Nat) (S : List (Int × Int))
    (hsrc : ∀ p ∈ S, 0 ≤ p.1 ∧ p.1 < n) (hdst : ∀ p ∈ S, 0 ≤ p.2 ∧ p.2 < n)
    (hsorted : S.Pairwise fun a b => a.1 ≤ b.1) (R : List (Int × Int)) :
    ∀ (P : List (Int × Int)) (cur nlist : List Int), S = P ++ R → cur.length = n →
      nlist.length = S.length →
      (∀ i : Nat, i < n → cur.getD i 0 = countBelow S i + countAt P i) →
      nlist.take P.length = P.map Prod.snd →
      fillAdjacency n R cur nlist = .ok (S.map Prod.snd) := by
  induction R with
  | nil =>
    intro P cur nlist hS _ hlen _ htake
    rw [List.append_nil] at hS
    subst hS
    rw [List.take_of_length_le (by omega)] at htake
    rw [fillAdjacency, htake]
  | cons p R ih =>
    intro P cur nlist hS hcur hlen hinv htake
    have hp : p ∈ S := by rw [hS]; simp
    obtain ⟨s0, s1⟩ := hsrc p hp
    obtain ⟨d0, d1⟩ := hdst p hp
    have hpw := hsorted
    rw [hS, List.pairwise_append] at hpw
    obtain ⟨_, hpR, hPR⟩ := hpw
    rw [List.pairwise_cons] at hpR
    have hpos : cur.getD p.1.toNat 0 = P.length := by
      have e : ((p.1.toNat : Nat) : Int) = p.1 := by omega
      rw [hinv p.1.toNat (by omega), e, hS, countBelow_append,
        countBelow_eq_zero (p :: R) p.1 (by
          intro q hq
          rcases List.mem_cons.mp hq with h | h
          · rw [h]
          · exact hpR.1 q h)]
      have := countBelow_succ P p.1
      have h2 := countBelow_eq_length P (p.1 + 1) (by
        intro q hq
        have := hPR q hq p (by simp)
        omega)
      omega
    have hlt : P.length < nlist.length := by rw [hlen, hS]; simp
    rw [fillAdjacency, if_neg (by omega)]
    simp only [hpos, Int.toNat_ofNat]
    apply ih (P ++ [p])
    · rw [hS]; simp
    · rw [List.length_set]; exact hcur
    · rw [List.length_set]; exact hlen
    · intro i hi
      rw [getD_set _ _ _ _ (by omega), countAt_append, countAt_cons, countAt_nil]
      by_cases h : i = p.1.toNat
      · have e : p.1 = i := by omega
        rw [if_pos h, if_pos e]
        have := hinv i hi
        rw [h, hpos] at this
        rw [h]
        omega
      · have e : ¬ p.1 = i := by omega
        rw [if_neg h, if_neg e, hinv i hi]
        omega
    · rw [List.length_append, List.length_singleton, take_succ_set _ _ _ hlt, htake]
      simp

theorem pairLT_of_le_of_ne {a b : Int × Int} (h : pairLE a b) (hne : a ≠ b) : pairLT a b := by
  unfold pairLE at h
  unfold pairLT
  by_cases h1 : a.1 < b.1
  · exact Or.inl h1
  · right
    have e1 : a.1 = b.1 := by omega
    refine ⟨e1, ?_⟩
    by_contra h2
    exact hne (Prod.ext e1 (by omega))

theorem pairLT_trans {a b c : Int × Int} (h1 : pairLT a b) (h2 : pairLT b c) : pairLT a c := by
  unfold pairLT at *; omega

theorem pairLE_of_lt {a b : Int × Int} (h : pairLT a b) : pairLE a b := by
  unfold pairLT at h; unfold pairLE; omega

theorem sort_sorted (l : List (Int × Int)) : (sort l).Pairwise pairLE :=
  List.sorted_insertionSort pairLE l

theorem mem_sort (l : List (Int × Int)) (p : Int × Int) : p ∈ sort l ↔ p ∈ l :=
  List.mem_insertionSort pairLE

theorem mem_uniqueAux (prev : Int × Int) (l : List (Int × Int)) (p : Int × Int) :
    (p ∈ uniqueAux prev l → p ∈ l) ∧ (p ∈ l → p ∈ uniqueAux prev l ∨ p = prev) := by
  induction l generalizing prev with
  | nil => simp [uniqueAux]
  | cons b t ih =>
    unfold uniqueAux
    by_cases h : prev = b
    · rw [if_pos h]
      refine ⟨fun hp => List.mem_cons_of_mem _ ((ih prev).1 hp), fun hp => ?_⟩
      rcases List.mem_cons.mp hp with e | e
      · exact Or.inr (e.trans h.symm)
      · exact (ih prev).2 e
    · rw [if_neg h]
      refine ⟨fun hp => ?_, fun hp => ?_⟩
      · rcases List.mem_cons.mp hp with e | e
        · exact e ▸ List.mem_cons_self _ _
        · exact List.mem_cons_of_mem _ ((ih b).1 e)
      · rcases List.mem_cons.mp hp with e | e
        · exact Or.inl (e ▸ List.mem_cons_self _ _)
        · rcases (ih b).2 e with e2 | e2
          · exact Or.inl (List.mem_cons_of_mem _ e2)
          · exact Or.inl (e2 ▸ List.mem_cons_self _ _)

theorem mem_unique (l : List (Int × Int)) (p : Int × Int) : p ∈ unique l ↔ p ∈ l := by
  cases l with
  | nil => simp [unique]
  | cons a t =>
    unfold unique
    constructor
    · intro hp
      rcases List.mem_cons.mp hp with e | e
      · exact e ▸ List.mem_cons_self _ _
      · exact List.mem_cons_of_mem _ ((mem_uniqueAux a t p).1 e)
    · intro hp
      rcases List.mem_cons.mp hp with e | e
      · exact e ▸ List.mem_cons_self _ _
      · rcases (mem_uniqueAux a t p).2 e with e2 | e2
        · exact List.mem_cons_of_mem _ e2
        · exact e2 ▸ List.mem_cons_self _ _

theorem uniqueAux_strict (prev : Int × Int) (l : List (Int × Int))
    (hl : l.Pairwise pairLE) (hprev : ∀ x ∈ l, pairLE prev x) :
    (uniqueAux prev l).Pairwise pairLT ∧ ∀ x ∈ uniqueAux prev l, pairLT prev x := by
  induction l generalizing prev with
  | nil => simp [uniqueAux]
  | cons b t ih =>
    rw [List.pairwise_cons] at hl
    unfold uniqueAux
    by_cases h : prev = b
    · rw [if_pos h]
      exact ih prev hl.2 (fun x hx => hprev x (List.mem_cons_of_mem _ hx))
    · rw [if_neg h]
      obtain ⟨h1, h2⟩ := ih b hl.2 hl.1
      have hpb : pairLT prev b := pairLT_of_le_of_ne (hprev b (List.mem_cons_self _ _)) h
      refine ⟨List.pairwise_cons.mpr ⟨h2, h1⟩, fun x hx => ?_⟩
      rcases List.mem_cons.mp hx with e | e
      · exact e ▸ hpb
      · exact pairLT_trans hpb (h2 x e)

theorem unique_strict (l : List (Int × Int)) (hl : l.Pairwise pairLE) :
    (unique l).Pairwise pairLT := by
  cases l with
  | nil => simp [unique]
  | cons a t =>
    rw [List.pairwise_cons] at hl
    obtain ⟨h1, h2⟩ := uniqueAux_strict a t hl.2 hl.1
    exact List.pairwise_cons.mpr ⟨h2, h1⟩

theorem nodup_of_strict (l : List (Int × Int)) (hl : l.Pairwise pairLT) : l.Nodup :=
  hl.imp fun {a b} h e => by
    subst e
    unfold pairLT at h
    omega

/-- On a sorted vector `std::unique` leaves what the removal of all duplicates
leaves. -/
theorem unique_sort_eq_dedup (l : List (Int × Int)) : unique (sort l) = (sort l).dedup := by
  have h1 : (unique (sort l)).Pairwise pairLT := unique_strict _ (sort_sorted l)
  have h2 : ((sort l).dedup).Pairwise pairLE :=
    List.Pairwise.sublist (List.dedup_sublist _) (sort_sorted l)
  refine List.eq_of_perm_of_sorted (r := pairLE) ?_ (h1.imp pairLE_of_lt) h2
  rw [List.perm_ext_iff_of_nodup (nodup_of_strict _ h1) (List.nodup_dedup _)]
  intro p
  rw [mem_unique, List.mem_dedup]

/-! ## The scan loop -/

theorem foldMin_cons (m : Int) (p : Int × Int) (A : List (Int × Int)) :
    foldMin m (p :: A) = foldMin (min m (min p.1 p.2)) A := rfl

theorem foldMax_cons (m : Int) (p : Int × Int) (A : List (Int × Int)) :
    foldMax m (p :: A) = foldMax (max m (max p.1 p.2)) A := rfl

theorem workingSet_cons (sym : Bool) (p : Int × Int) (A : List (Int × Int)) :
    workingSet sym (p :: A) = p :: ((if sym then [(p.2, p.1)] else []) ++ workingSet sym A) := by
  simp [workingSet, List.flatMap_cons]

/-- The scan loop ends normally exactly when no line yields a fatal pair, and
then it has recorded the accepted pairs of the lines. -/
theorem scanLoop_ok (sym : Bool) (lines : List (List Char)) (st st1 : ScanState) :
    scanLoop sym lines st = .ok st1 ↔
      (∀ p ∈ lines.filterMap parseLine, ¬ isFatal p) ∧
      st1 = { edges := st.edges ++ workingSet sym (dropLoops (lines.filterMap parseLine))
              min_id := foldMin st.min_id (dropLoops (lines.filterMap parseLine))
              max_id := foldMax st.max_id (dropLoops (lines.filterMap parseLine)) } := by
  induction lines generalizing st with
  | nil =>
    simp only [scanLoop, List.filterMap_nil, dropLoops, List.filter_nil, workingSet,
      List.flatMap_nil, List.append_nil, foldMin, foldMax, List.foldl_nil, List.not_mem_nil,
      false_imp_iff, implies_true, true_and, Except.ok.injEq]
    exact eq_comm
  | cons line rest ih =>
    unfold scanLoop scanStep
    by_cases hc : is_comment_or_blank line = true
    · have hp : parseLine line = none := by simp [parseLine, hc]
      simp only [hc, if_true, List.filterMap_cons, hp]
      exact ih st
    · have hc : is_comment_or_blank line = false := by simpa using hc
      cases hs : sscanf line with
      | none =>
        have hp : parseLine line = none := by simp [parseLine, hc, hs]
        simp only [hc, Bool.false_eq_true, if_false, List.filterMap_cons, hp]
        exact ih st
      | some uv =>
        obtain ⟨u, v⟩ := uv
        have hp : parseLine line = some (u, v) := by simp [parseLine, hc, hs]
        simp only [hc, Bool.false_eq_true, if_false, List.filterMap_cons, hp, List.mem_cons,
          forall_eq_or_imp]
        by_cases h3 : u < 0 ∨ v < 0
        · have hf : isFatal (u, v) := by unfold isFatal; simp only; omega
          simp [h3, hf]
        · by_cases h4 : u > INT_MAX ∨ v > INT_MAX
          · have hf : isFatal (u, v) := by unfold isFatal; simp only; omega
            simp [h3, h4, hf]
          · have hf : ¬ isFatal (u, v) := by unfold isFatal; simp only; omega
            by_cases h5 : u = v
            · subst h5
              have hd : dropLoops ((u, u) :: rest.filterMap parseLine)
                  = dropLoops (rest.filterMap parseLine) := by
                simp [dropLoops]
              simp only [h3, h4, if_false, if_true, hd, hf, not_false_eq_true, true_and]
              exact ih st
            · have hd : dropLoops ((u, v) :: rest.filterMap parseLine)
                  = (u, v) :: dropLoops (rest.filterMap parseLine) := by
                simp [dropLoops, h5]
              simp only [h3, h4, h5, if_false, hd, hf, not_false_eq_true, true_and]
              rw [ih, workingSet_cons, foldMin_cons, foldMax_cons]
              simp

/-! ## The construction of the CSR arrays -/

theorem getD_replicate_zero (n i : Nat) : (List.replicate n (0 : Int)).getD i 0 = 0 := by
  simp only [List.getD_eq_getElem?_getD, List.getElem?_replicate]
  split <;> rfl

/-- The construction from the sorted, duplicate-free vector: when it ends with
a graph, this graph is the CSR form of that vector on `max_id + 1` nodes. -/
theorem buildCSR_ok (malloc : Nat → Bool) (E : List (Int × Int)) (M : Int) (g : ECLgraph)
    (h : buildCSR malloc E M = .ok g)
    (hr : ∀ p ∈ E, 0 ≤ p.1 ∧ p.1 ≤ M ∧ 0 ≤ p.2 ∧ p.2 ≤ M) (hM : M ≤ INT_MAX)
    (hM0 : 0 ≤ M) :
    ∃ n : Nat, (n : Int) = M + 1 ∧ (n : Int) < INT_MAX ∧ IsCSR g n (unique (sort E)) := by
  unfold INT_MAX at hM
  have hS : ∀ p ∈ unique (sort E), 0 ≤ p.1 ∧ p.1 ≤ M ∧ 0 ≤ p.2 ∧ p.2 ≤ M := by
    intro p hp
    exact hr p ((mem_sort E p).1 ((mem_unique _ p).1 hp))
  unfold buildCSR at h
  simp only at h
  split at h
  · exact absurd h (by simp)
  rename_i hlen
  by_cases hmax : M = 2147483647
  · exfalso
    subst hmax
    have e1 : (toBits (wrapInt (2147483647 + 1)) + 1) % 2 ^ 64 = 18446744071562067969 := by
      decide
    rw [e1] at h
    have e2 : calloc malloc 18446744071562067969 8 = false := by
      unfold calloc
      rw [if_neg (by decide)]
    rw [e2] at h
    simp at h
  have hw : wrapInt (M + 1) = M + 1 := by unfold wrapInt; omega
  rw [hw] at h
  obtain ⟨n, hn⟩ : ∃ n : Nat, (n : Int) = M + 1 := ⟨(M + 1).toNat, by omega⟩
  have hnm : (toBits (M + 1) + 1) % 2 ^ 64 = n + 1 := by
    unfold toBits; omega
  rw [hnm] at h
  split at h
  · exact absurd h (by simp)
  obtain ⟨counts, hc, hclen, hcget⟩ := degreeCount_ok n (unique (sort E))
    (fun p hp => by have := hS p hp; omega) (List.replicate (n + 1) 0) (by simp)
  rw [← hn, hc] at h
  simp only at h
  split at h
  · exact absurd h (by simp)
  rename_i hn2
  have hps := prefixSum_steps (unique (sort E)) (fun p hp => (hS p hp).1) n counts hclen
    (by rw [(hcget 0).2, getD_replicate_zero])
    (fun j => by rw [(hcget j).1, getD_replicate_zero, zero_add]) n (le_refl n)
  have hpe : prefixSum (n : Int) counts
      = (List.range n).foldl (fun a k => a.set (k + 1) (a.getD (k + 1) 0 + a.getD k 0)) counts := by
    unfold prefixSum
    rw [Int.toNat_ofNat]
  rw [← hpe] at hps
  obtain ⟨hplen, hpget⟩ := hps
  have hfill := fillAdjacency_ok n (unique (sort E))
    (fun p hp => by have := hS p hp; omega) (fun p hp => by have := hS p hp; omega)
    ((unique_strict _ (sort_sorted E)).imp fun {a b} hab => by
      unfold pairLT at hab; omega) (unique (sort E)) [] ((prefixSum (n : Int) counts).take n)
    (List.replicate (unique (sort E)).length 0) (by simp) (by simp; omega) (by simp)
    (fun i hi => by
      rw [getD_take _ _ _ hi, hpget i, if_pos (by omega), countAt_nil, add_zero])
    (by simp)
  rw [Int.toNat_ofNat, Int.toNat_ofNat, hfill] at h
  simp only [Except.ok.injEq] at h
  subst h
  refine ⟨n, hn, ?_, rfl, rfl, hplen, fun i hi => ?_, rfl, rfl⟩
  · unfold INT_MAX at hn2 ⊢; omega
  · rw [hpget i, if_pos hi]

/-! ## The tracked minimum and maximum -/

theorem foldMin_le_init (m : Int) (A : List (Int × Int)) : foldMin m A ≤ m := by
  induction A generalizing m with
  | nil => exact le_refl m
  | cons p t ih =>
    rw [foldMin_cons]
    have := ih (min m (min p.1 p.2))
    omega

theorem foldMin_le_mem (m : Int) (A : List (Int × Int)) :
    ∀ p ∈ A, foldMin m A ≤ p.1 ∧ foldMin m A ≤ p.2 := by
  induction A generalizing m with
  | nil => intro p hp; exact absurd hp (List.not_mem_nil p)
  | cons q t ih =>
    intro p hp
    rw [foldMin_cons]
    rcases List.mem_cons.mp hp with e | e
    · subst e
      have := foldMin_le_init (min m (min p.1 p.2)) t
      omega
    · exact ih _ p e

theorem foldMin_ge (c m : Int) (A : List (Int × Int)) (hm : c ≤ m)
    (hA : ∀ p ∈ A, c ≤ p.1 ∧ c ≤ p.2) : c ≤ foldMin m A := by
  induction A generalizing m with
  | nil => exact hm
  | cons q t ih =>
    rw [foldMin_cons]
    have := hA q (by simp)
    exact ih _ (by omega) (fun p hp => hA p (by simp [hp]))

theorem foldMin_attained (m : Int) (A : List (Int × Int)) :
    foldMin m A = m ∨ ∃ p ∈ A, p.1 = foldMin m A ∨ p.2 = foldMin m A := by
  induction A generalizing m with
  | nil => exact Or.inl rfl
  | cons q t ih =>
    rw [foldMin_cons]
    rcases ih (min m (min q.1 q.2)) with e | ⟨p, hp, e⟩
    · rw [e]
      by_cases h1 : min m (min q.1 q.2) = m
      · exact Or.inl h1
      · exact Or.inr ⟨q, by simp, by omega⟩
    · exact Or.inr ⟨p, by simp [hp], e⟩

theorem foldMax_ge_init (m : Int) (A : List (Int × Int)) : m ≤ foldMax m A := by
  induction A generalizing m with
  | nil => exact le_refl m
  | cons p t ih =>
    rw [foldMax_cons]
    have := ih (max m (max p.1 p.2))
    omega

theorem foldMax_ge_mem (m : Int) (A : List (Int × Int)) :
    ∀ p ∈ A, p.1 ≤ foldMax m A ∧ p.2 ≤ foldMax m A := by
  induction A generalizing m with
  | nil => intro p hp; exact absurd hp (List.not_mem_nil p)
  | cons q t ih =>
    intro p hp
    rw [foldMax_cons]
    rcases List.mem_cons.mp hp with e | e
    · subst e
      have := foldMax_ge_init (max m (max p.1 p.2)) t
      omega
    · exact ih _ p e

theorem foldMax_le (c m : Int) (A : List (Int × Int)) (hm : m ≤ c)
    (hA : ∀ p ∈ A, p.1 ≤ c ∧ p.2 ≤ c) : foldMax m A ≤ c := by
  induction A generalizing m with
  | nil => exact hm
  | cons q t ih =>
    rw [foldMax_cons]
    have := hA q (by simp)
    exact ih _ (by omega) (fun p hp => hA p (by simp [hp]))

/-- The test `min_id == 1` after the scan holds exactly when the least id of
the accepted pairs is 1. -/
theorem foldMin_eq_one_iff (A : List (Int × Int)) :
    foldMin INT_MAX A = 1 ↔ HasMinId A 1 := by
  constructor
  · intro h
    refine ⟨fun p hp => by have := foldMin_le_mem INT_MAX A p hp; omega, ?_⟩
    rcases foldMin_attained INT_MAX A with e | ⟨p, hp, e⟩
    · rw [h] at e
      exact absurd e (by decide)
    · exact ⟨p, hp, by omega⟩
  · intro ⟨hall, p, hp, hp1⟩
    have h1 := foldMin_le_mem INT_MAX A p hp
    have h2 := foldMin_ge 1 INT_MAX A (by decide) hall
    omega

theorem mem_workingSet (sym : Bool) (A : List (Int × Int)) (p : Int × Int) :
    p ∈ workingSet sym A ↔ p ∈ A ∨ (sym = true ∧ (p.2, p.1) ∈ A) := by
  unfold workingSet
  rw [List.mem_flatMap]
  constructor
  · rintro ⟨q, hq, hp⟩
    rcases List.mem_cons.mp hp with e | e
    · exact Or.inl (e ▸ hq)
    · cases sym with
      | false => simp at e
      | true =>
        simp only [if_true, List.mem_singleton] at e
        subst e
        exact Or.inr ⟨rfl, hq⟩
  · rintro (h | ⟨hs, h⟩)
    · exact ⟨p, h, List.mem_cons_self _ _⟩
    · exact ⟨(p.2, p.1), h, by simp [hs]⟩

theorem mem_dropLoops (l : List (Int × Int)) (p : Int × Int) :
    p ∈ dropLoops l ↔ p ∈ l ∧ p.1 ≠ p.2 := by
  simp [dropLoops]

theorem mem_shiftDown (r : Int) (E : List (Int × Int)) (p : Int × Int) :
    p ∈ shiftDown r E ↔ (p.1 + r, p.2 + r) ∈ E := by
  unfold shiftDown
  rw [List.mem_map]
  constructor
  · rintro ⟨q, hq, rfl⟩
    simpa using hq
  · intro h
    exact ⟨_, h, by simp⟩

theorem shiftDown_zero (E : List (Int × Int)) : shiftDown 0 E = E := by
  simp [shiftDown]

/-! ## The converter as a whole -/

/-- What a successful run of the converter means: no line is fatal, some pair
is accepted, and the graph is the CSR form of the final vector of edges on
`max_id + 1` nodes, all of whose ids are below the node count. -/
theorem compile_ok (malloc : Nat → Bool) (input : List Char) (sym : Bool) (g : ECLgraph)
    (h : compile malloc input sym = .ok g) :
    (∀ p ∈ parsedPairs input, ¬ isFatal p) ∧ acceptedPairs input ≠ [] ∧
    ∃ n : Nat,
      (n : Int) = foldMax (-1) (acceptedPairs input) - rebaseShift (acceptedPairs input) + 1 ∧
      (n : Int) < INT_MAX ∧ IsCSR g n (finalEdges input sym) ∧
      ∀ p ∈ finalEdges input sym, 0 ≤ p.1 ∧ p.1 < n ∧ 0 ≤ p.2 ∧ p.2 < n := by
  unfold compile at h
  cases hscan : scanLoop sym (fgetsLines input []) { edges := [], min_id := INT_MAX, max_id := -1 }
    with
  | error x => rw [hscan] at h; exact absurd h (by simp)
  | ok st =>
    rw [hscan] at h
    simp only at h
    obtain ⟨hnf, hst⟩ := (scanLoop_ok sym _ _ st).1 hscan
    simp only [List.nil_append] at hst
    change (∀ p ∈ parsedPairs input, ¬ isFatal p) at hnf
    change st = { edges := workingSet sym (acceptedPairs input)
                  min_id := foldMin INT_MAX (acceptedPairs input)
                  max_id := foldMax (-1) (acceptedPairs input) } at hst
    have hA : ∀ p ∈ acceptedPairs input,
        0 ≤ p.1 ∧ p.1 ≤ INT_MAX ∧ 0 ≤ p.2 ∧ p.2 ≤ INT_MAX := by
      intro p hp
      have := hnf p ((mem_dropLoops _ p).1 hp).1
      unfold isFatal at this
      omega
    have hW : ∀ p ∈ workingSet sym (acceptedPairs input),
        ∃ q ∈ acceptedPairs input, (p = q ∨ p = (q.2, q.1)) := by
      intro p hp
      rcases (mem_workingSet sym _ p).1 hp with e | ⟨_, e⟩
      · exact ⟨p, e, Or.inl rfl⟩
      · exact ⟨_, e, Or.inr rfl⟩
    subst hst
    unfold buildGraph at h
    split at h
    · exact absurd h (by simp)
    rename_i hne
    have hne2 : acceptedPairs input ≠ [] := by
      intro e
      apply hne
      simp [e, workingSet]
    obtain ⟨a, ha⟩ := List.exists_mem_of_ne_nil _ hne2
    have hmaxle : foldMax (-1) (acceptedPairs input) ≤ INT_MAX :=
      foldMax_le INT_MAX (-1) _ (by decide) (fun p hp => by have := hA p hp; omega)
    have hkey : ∀ r : Int, (r = 0 ∨ (r = 1 ∧ HasMinId (acceptedPairs input) 1)) →
        buildCSR malloc (shiftDown r (workingSet sym (acceptedPairs input)))
          (foldMax (-1) (acceptedPairs input) - r) = .ok g →
        ∃ n : Nat, (n : Int) = foldMax (-1) (acceptedPairs input) - r + 1 ∧
          (n : Int) < INT_MAX ∧
          IsCSR g n (unique (sort (shiftDown r (workingSet sym (acceptedPairs input))))) ∧
          ∀ p ∈ unique (sort (shiftDown r (workingSet sym (acceptedPairs input)))),
            0 ≤ p.1 ∧ p.1 < n ∧ 0 ≤ p.2 ∧ p.2 < n := by
      intro r hr hb
      have hlow : ∀ q ∈ acceptedPairs input, r ≤ q.1 ∧ r ≤ q.2 := by
        intro q hq
        rcases hr with e | ⟨e, hmin⟩
        · have := hA q hq; omega
        · have := hmin.1 q hq; omega
      have hr01 : 0 ≤ r := by rcases hr with e | ⟨e, _⟩ <;> omega
      have hE : ∀ p ∈ shiftDown r (workingSet sym (acceptedPairs input)),
          0 ≤ p.1 ∧ p.1 ≤ foldMax (-1) (acceptedPairs input) - r ∧
          0 ≤ p.2 ∧ p.2 ≤ foldMax (-1) (acceptedPairs input) - r := by
        intro p hp
        obtain ⟨q, hq, e⟩ := hW _ ((mem_shiftDown r _ p).1 hp)
        have h1 := hlow q hq
        have h2 := foldMax_ge_mem (-1) _ q hq
        rcases e with e | e
        · have e1 := congrArg Prod.fst e
          have e2 := congrArg Prod.snd e
          simp only at e1 e2
          omega
        · have e1 := congrArg Prod.fst e
          have e2 := congrArg Prod.snd e
          simp only at e1 e2
          omega
      have hM0 : 0 ≤ foldMax (-1) (acceptedPairs input) - r := by
        have h1 := hlow a ha
        have h2 := foldMax_ge_mem (-1) _ a ha
        omega
      obtain ⟨n, hn1, hn2, hcsr⟩ := buildCSR_ok malloc _ _ g hb hE (by omega) hM0
      refine ⟨n, hn1, hn2, hcsr, fun p hp => ?_⟩
      have := hE p ((mem_sort _ p).1 ((mem_unique _ p).1 hp))
      omega
    refine ⟨hnf, hne2, ?_⟩
    unfold finalEdges rebaseShift
    by_cases hm : foldMin INT_MAX (acceptedPairs input) = 1
    · have hmin := (foldMin_eq_one_iff _).1 hm
      simp only [hm, if_true] at h
      rw [if_neg (by decide)] at h
      rw [if_pos hmin]
      exact hkey 1 (Or.inr ⟨rfl, hmin⟩) h
    · have hmin : ¬ HasMinId (acceptedPairs input) 1 := fun hh => hm ((foldMin_eq_one_iff _).2 hh)
      simp only [hm, if_false] at h
      have h0 : ¬ foldMin INT_MAX (acceptedPairs input) < 0 := by
        have := foldMin_ge 0 INT_MAX (acceptedPairs input) (by decide)
          (fun p hp => by have := hA p hp; omega)
        omega
      rw [if_neg h0] at h
      rw [if_neg hmin]
      apply hkey 0 (Or.inl rfl)
      rw [shiftDown_zero, sub_zero]
      exact h

/-! ## The neighbour ranges of a CSR graph -/

theorem take_count_eq_filter (S : List (Int × Int)) (i : Int)
    (hs : S.Pairwise fun a b => a.1 ≤ b.1) (hge : ∀ p ∈ S, i ≤ p.1) :
    S.take (S.countP fun p => decide (p.1 = i)) = S.filter fun p => decide (p.1 = i) := by
  induction S with
  | nil => rfl
  | cons b t ih =>
    rw [List.pairwise_cons] at hs
    by_cases hb : b.1 = i
    · rw [List.countP_cons_of_pos _ _ (by simpa using hb),
        List.filter_cons_of_pos (by simpa using hb), List.take_succ_cons,
        ih hs.2 (fun p hp => hge p (by simp [hp]))]
    · have hall : ∀ a ∈ b :: t, ¬ (decide (a.1 = i) = true) := by
        intro a ha
        have hbi := hge b (by simp)
        rcases List.mem_cons.mp ha with e | e
        · subst e; simpa using hb
        · have := hs.1 a e
          simp only [decide_eq_true_eq]
          omega
      rw [List.countP_eq_zero.2 hall, List.filter_eq_nil_iff.2 hall]
      rfl

theorem drop_take_count_eq_filter (S : List (Int × Int)) (i : Int)
    (hs : S.Pairwise fun a b => a.1 ≤ b.1) :
    (S.drop (S.countP fun p => decide (p.1 < i))).take (S.countP fun p => decide (p.1 = i))
      = S.filter fun p => decide (p.1 = i) := by
  induction S with
  | nil => rfl
  | cons a t ih =>
    by_cases ha : a.1 < i
    · have hne : ¬ a.1 = i := by omega
      rw [List.countP_cons_of_pos (fun p : Int × Int => decide (p.1 < i)) _ (by simpa using ha),
        List.countP_cons_of_neg (fun p : Int × Int => decide (p.1 = i)) _ (by simpa using hne),
        List.filter_cons_of_neg (by simpa using hne), List.drop_succ_cons]
      exact ih (List.pairwise_cons.1 hs).2
    · have hge : ∀ p ∈ a :: t, i ≤ p.1 := by
        intro p hp
        rcases List.mem_cons.mp hp with e | e
        · subst e; omega
        · have := (List.pairwise_cons.1 hs).1 p e
          omega
      have hz : (a :: t).countP (fun p => decide (p.1 < i)) = 0 :=
        List.countP_eq_zero.2 (fun p hp => by
          have := hge p hp
          simp only [decide_eq_true_eq]
          omega)
      rw [hz, List.drop_zero]
      exact take_count_eq_filter _ i hs hge

/-- In the CSR form of a list sorted by source, the neighbour range of node
`i` lists the destinations of the edges of source `i`, in the order of the
list. -/
theorem neighbours_eq (g : ECLgraph) (n : Nat) (S : List (Int × Int)) (hc : IsCSR g n S)
    (hs : S.Pairwise fun a b => a.1 ≤ b.1) (i : Nat) (hi : i < n) :
    neighbours g i = (S.filter fun p => decide (p.1 = (i : Int))).map Prod.snd := by
  obtain ⟨_, _, _, hoff, hl, _⟩ := hc
  have h1 : offsetAt g i = S.countP fun p => decide (p.1 < (i : Int)) := by
    unfold offsetAt
    rw [hoff i (by omega)]
    unfold countBelow
    rw [Int.toNat_ofNat]
  have h2 : offsetAt g (i + 1) - offsetAt g i = S.countP fun p => decide (p.1 = (i : Int)) := by
    rw [h1]
    unfold offsetAt
    rw [hoff (i + 1) (by omega)]
    have := countBelow_succ S i
    unfold countBelow countAt at this
    unfold countBelow
    push_cast at this ⊢
    omega
  unfold neighbours
  rw [h2, h1, hl, ← List.map_drop, ← List.map_take, drop_take_count_eq_filter S i hs]

theorem strict_imp_src_le {S : List (Int × Int)} (h : S.Pairwise pairLT) :
    S.Pairwise fun a b => a.1 ≤ b.1 :=
  h.imp fun {a b} hab => by unfold pairLT at hab; omega

/-- The destinations of the edges of one source, in a strictly sorted list,
increase strictly. -/
theorem filter_snd_increasing (S : List (Int × Int)) (h : S.Pairwise pairLT) (i : Int) :
    ((S.filter fun p => decide (p.1 = i)).map Prod.snd).Pairwise (· < ·) := by
  rw [List.pairwise_map]
  have h1 := List.Pairwise.filter (fun p => decide (p.1 = i)) h
  rw [List.pairwise_iff_forall_sublist] at h1 ⊢
  intro a b hab
  have ha : a ∈ S.filter fun p => decide (p.1 = i) := hab.subset (by simp)
  have hb : b ∈ S.filter fun p => decide (p.1 = i) := hab.subset (by simp)
  have e1 := (List.mem_filter.1 ha).2
  have e2 := (List.mem_filter.1 hb).2
  simp only [decide_eq_true_eq] at e1 e2
  have := h1 hab
  unfold pairLT at this
  omega

theorem finalEdges_strict (input : List Char) (sym : Bool) :
    (finalEdges input sym).Pairwise pairLT :=
  unique_strict _ (sort_sorted _)

theorem mem_finalEdges (input : List Char) (sym : Bool) (p : Int × Int) :
    p ∈ finalEdges input sym ↔
      (p.1 + rebaseShift (acceptedPairs input), p.2 + rebaseShift (acceptedPairs input))
        ∈ workingSet sym (acceptedPairs input) := by
  unfold finalEdges
  rw [mem_unique, mem_sort, mem_shiftDown]

theorem finalEdges_eq_reference (input : List Char) (sym : Bool) :
    finalEdges input sym = referenceEdges input sym :=
  unique_sort_eq_dedup _

theorem mem_neighbours (g : ECLgraph) (n : Nat) (S : List (Int × Int)) (hc : IsCSR g n S)
    (hs : S.Pairwise fun a b => a.1 ≤ b.1) (i : Nat) (hi : i < n) (d : Int) :
    d ∈ neighbours g i ↔ ((i : Int), d) ∈ S := by
  rw [neighbours_eq g n S hc hs i hi, List.mem_map]
  constructor
  · rintro ⟨p, hp, rfl⟩
    obtain ⟨h1, h2⟩ := List.mem_filter.1 hp
    simp only [decide_eq_true_eq] at h2
    rw [← h2]
    exact h1
  · intro h
    exact ⟨((i : Int), d), List.mem_filter.2 ⟨h, by simp⟩, rfl⟩

theorem countBelow_mono (S : List (Int × Int)) (i j : Int) (h : i ≤ j) :
    countBelow S i ≤ countBelow S j := by
  induction S with
  | nil => exact le_refl _
  | cons p t ih =>
    rw [countBelow_cons, countBelow_cons]
    by_cases h1 : p.1 < i
    · rw [if_pos h1, if_pos (show p.1 < j by omega)]
      omega
    · rw [if_neg h1]
      split <;> omega

theorem getElem?_of_getD (l : List Int) (i : Nat) (v : Int) (hi : i < l.length)
    (h : l.getD i 0 = v) : l[i]? = some v := by
  rw [List.getD_eq_getElem?_getD, List.getElem?_eq_getElem hi] at h
  rw [List.getElem?_eq_getElem hi]
  exact congrArg some h

/-- C2: for every input on which the converter ends with a graph, with `S` the
reference edge list (accepted pairs, reverses when the option is on, re-based,
sorted, duplicates removed): `edges` is the length of `S`, `offsets[i]` is the
number of pairs of `S` of source below `i` for every `i` up to the node count,
the adjacency is the list of the destinations of `S`, every neighbour range
increases strictly, and the four lines `0 1`, `1 2`, `2 0`, `1 0` give 3 nodes,
4 edges, offsets `[0,1,3,4]` and adjacency `[1,0,2,0]`. -/
theorem compile_reference (malloc : Nat → Bool) (input : List Char) (sym : Bool)
    (g : ECLgraph) (h : compile malloc input sym = .ok g) :
    g.edges = (referenceEdges input sym).length ∧
    (∀ i : Nat, (i : Int) ≤ g.nodes →
      g.nindex[i]? = some (countBelow (referenceEdges input sym) i)) ∧
    g.nlist = (referenceEdges input sym).map Prod.snd ∧
    (∀ i : Nat, (i : Int) < g.nodes → (neighbours g i).Pairwise (· < ·)) ∧
    compile (fun _ => true) "0 1\n1 2\n2 0\n1 0\n".toList false
      = .ok ⟨3, 4, [0, 1, 3, 4], [1, 0, 2, 0], none⟩ := by
  obtain ⟨_, _, n, _, _, hc, _⟩ := compile_ok malloc input sym g h
  have hst := finalEdges_strict input sym
  have hnb := fun i hi => neighbours_eq g n _ hc (strict_imp_src_le hst) i hi
  rw [finalEdges_eq_reference] at hc hst hnb
  obtain ⟨hn, he, hlen, hoff, hl, _⟩ := hc
  refine ⟨he, fun i hi => ?_, hl, fun i hi => ?_, by decide⟩
  · exact getElem?_of_getD _ _ _ (by omega) (hoff i (by omega))
  · rw [hnb i (by omega)]
    exact filter_snd_increasing _ hst _

theorem compile_reference_witness :
    compile (fun _ => true) "0 1\n1 2\n1 2\n".toList true
      = .ok ⟨3, 4, [0, 1, 3, 4], [1, 0, 2, 1], none⟩ ∧
    (4 : Int) = (referenceEdges "0 1\n1 2\n1 2\n".toList true).length :=
  ⟨by decide,
    (compile_reference (fun _ => true) "0 1\n1 2\n1 2\n".toList true
      ⟨3, 4, [0, 1, 3, 4], [1, 0, 2, 1], none⟩ (by decide)).1⟩

/-- C3: for every graph the converter constructs, `offsets` has `nodes + 1`
entries, `offsets[0] = 0`, the entries never decrease, and
`offsets[nodes] = edges`, which is the sum of the differences
`offsets[i+1] - offsets[i]` over all nodes. -/
theorem compile_offsets (malloc : Nat → Bool) (input : List Char) (sym : Bool)
    (g : ECLgraph) (h : compile malloc input sym = .ok g) :
    (g.nindex.length : Int) = g.nodes + 1 ∧ g.nindex[0]? = some 0 ∧
    (∀ i j : Nat, i ≤ j → (j : Int) ≤ g.nodes → g.nindex.getD i 0 ≤ g.nindex.getD j 0) ∧
    g.nindex[g.nodes.toNat]? = some g.edges ∧
    g.edges = Finset.sum (Finset.range g.nodes.toNat)
      (fun i => g.nindex.getD (i + 1) 0 - g.nindex.getD i 0) := by
  obtain ⟨_, _, n, _, _, hc, hr⟩ := compile_ok malloc input sym g h
  obtain ⟨hn, he, hlen, hoff, hl, _⟩ := hc
  have h0 : g.nindex.getD 0 0 = 0 := by
    rw [hoff 0 (by omega)]
    exact countBelow_eq_zero _ _ (fun p hp => by have := hr p hp; simp only [Nat.cast_zero]; omega)
  have hN : g.nindex.getD n 0 = g.edges := by
    rw [hoff n (le_refl n), he]
    exact countBelow_eq_length _ _ (fun p hp => by have := hr p hp; omega)
  have hnn : g.nodes.toNat = n := by omega
  refine ⟨by omega, getElem?_of_getD _ _ _ (by omega) h0, fun i j hij hj => ?_, ?_, ?_⟩
  · rw [hoff i (by omega), hoff j (by omega)]
    exact countBelow_mono _ _ _ (by omega)
  · rw [hnn]
    exact getElem?_of_getD _ _ _ (by omega) hN
  · rw [hnn, Finset.sum_range_sub (fun i => g.nindex.getD i 0) n, hN, h0, sub_zero]

theorem compile_offsets_witness :
    compile (fun _ => true) "5 3\n3 5\n".toList false
      = .ok ⟨6, 2, [0, 0, 0, 0, 1, 1, 2], [5, 3], none⟩ ∧
    ([0, 0, 0, 0, 1, 1, 2] : List Int)[(6 : Int).toNat]? = some 2 :=
  ⟨by decide,
    (compile_offsets (fun _ => true) "5 3\n3 5\n".toList false
      ⟨6, 2, [0, 0, 0, 0, 1, 1, 2], [5, 3], none⟩ (by decide)).2.2.2.1⟩

/-- C4: for every graph the converter constructs, no neighbour range holds a
value twice, and no pair `(i, adjacency[k])` occurs twice in the structure,
whatever the input repeats and whatever the option. -/
theorem compile_no_duplicates (malloc : Nat → Bool) (input : List Char) (sym : Bool)
    (g : ECLgraph) (h : compile malloc input sym = .ok g) :
    (∀ i : Nat, (i : Int) < g.nodes → (neighbours g i).Nodup) ∧ (edgePairs g).Nodup := by
  obtain ⟨_, _, n, _, _, hc, _⟩ := compile_ok malloc input sym g h
  have hst := finalEdges_strict input sym
  have hn : g.nodes = n := hc.1
  have hnd : ∀ i : Nat, i < n → (neighbours g i).Nodup := by
    intro i hi
    rw [neighbours_eq g n _ hc (strict_imp_src_le hst) i hi]
    exact (filter_snd_increasing _ hst _).imp fun {a b} hab => by omega
  refine ⟨fun i hi => hnd i (by omega), ?_⟩
  unfold edgePairs
  rw [List.nodup_flatMap]
  constructor
  · intro i hi
    have hi2 : i < n := by
      have := List.mem_range.1 hi
      omega
    exact (hnd i hi2).map (fun a b hab => (Prod.ext_iff.1 hab).2)
  · apply (List.nodup_range _).pairwise_of_forall_ne
    intro i _ j _ hij
    simp only [Function.onFun]
    intro p hp1 hp2
    obtain ⟨a, _, ha⟩ := List.mem_map.1 hp1
    obtain ⟨b, _, hb⟩ := List.mem_map.1 hp2
    have := congrArg Prod.fst (ha.trans hb.symm)
    simp only at this
    exact hij (by omega)

theorem compile_no_duplicates_witness :
    compile (fun _ => true) "0 1\n0 1\n1 0\n".toList true
      = .ok ⟨2, 2, [0, 1, 2], [1, 0], none⟩ ∧
    (edgePairs ⟨2, 2, [0, 1, 2], [1, 0], none⟩).Nodup :=
  ⟨by decide,
    (compile_no_duplicates (fun _ => true) "0 1\n0 1\n1 0\n".toList true
      ⟨2, 2, [0, 1, 2], [1, 0], none⟩ (by decide)).2⟩

theorem finalEdges_no_loop (input : List Char) (sym : Bool) :
    ∀ p ∈ finalEdges input sym, p.1 ≠ p.2 := by
  intro p hp
  rw [mem_finalEdges, mem_workingSet] at hp
  rcases hp with e | ⟨_, e⟩
  · have := ((mem_dropLoops _ _).1 e).2
    simp only at this
    omega
  · have := ((mem_dropLoops _ _).1 e).2
    simp only at this
    omega

/-- C5: for every graph the converter constructs, no node occurs in its own
neighbour range, with or without re-basing and with or without the option. -/
theorem compile_no_self_loops (malloc : Nat → Bool) (input : List Char) (sym : Bool)
    (g : ECLgraph) (h : compile malloc input sym = .ok g) :
    ∀ i : Nat, (i : Int) < g.nodes → (i : Int) ∉ neighbours g i := by
  obtain ⟨_, _, n, _, _, hc, _⟩ := compile_ok malloc input sym g h
  have hn : g.nodes = n := hc.1
  intro i hi hmem
  rw [mem_neighbours g n _ hc (strict_imp_src_le (finalEdges_strict input sym)) i (by omega)]
    at hmem
  exact finalEdges_no_loop input sym _ hmem rfl

theorem compile_no_self_loops_witness :
    compile (fun _ => true) "1 1\n1 2\n2 2\n".toList true
      = .ok ⟨2, 2, [0, 1, 2], [1, 0], none⟩ ∧
    (1 : Int) ∉ neighbours ⟨2, 2, [0, 1, 2], [1, 0], none⟩ 1 :=
  ⟨by decide,
    compile_no_self_loops (fun _ => true) "1 1\n1 2\n2 2\n".toList true
      ⟨2, 2, [0, 1, 2], [1, 0], none⟩ (by decide) 1 (by decide)⟩

/-- C6: for every graph the converter constructs, every value of the adjacency
lies in `[0, nodes)`. -/
theorem compile_range_safety (malloc : Nat → Bool) (input : List Char) (sym : Bool)
    (g : ECLgraph) (h : compile malloc input sym = .ok g) :
    ∀ x ∈ g.nlist, 0 ≤ x ∧ x < g.nodes := by
  obtain ⟨_, _, n, _, _, hc, hr⟩ := compile_ok malloc input sym g h
  obtain ⟨hn, _, _, _, hl, _⟩ := hc
  intro x hx
  rw [hl] at hx
  obtain ⟨p, hp, rfl⟩ := List.mem_map.1 hx
  have := hr p hp
  omega

theorem compile_range_safety_witness :
    compile (fun _ => true) "7 9\n".toList false
      = .ok ⟨10, 1, [0, 0, 0, 0, 0, 0, 0, 0, 1, 1, 1], [9], none⟩ ∧
    ∀ x ∈ ([9] : List Int), 0 ≤ x ∧ x < 10 :=
  ⟨by decide,
    compile_range_safety (fun _ => true) "7 9\n".toList false
      ⟨10, 1, [0, 0, 0, 0, 0, 0, 0, 0, 1, 1, 1], [9], none⟩ (by decide)⟩

/-- C8: with the option on, for every graph the converter constructs and every
pair `(u, v)` of a line with `u ≠ v`, after re-basing `v` is in the neighbour
range of `u` and `u` is in the neighbour range of `v`. -/
theorem compile_symmetric (malloc : Nat → Bool) (input : List Char) (g : ECLgraph)
    (h : compile malloc input true = .ok g) (u v : Int) (huv : (u, v) ∈ parsedPairs input)
    (hne : u ≠ v) :
    v - rebaseShift (acceptedPairs input)
        ∈ neighbours g (u - rebaseShift (acceptedPairs input)).toNat ∧
    u - rebaseShift (acceptedPairs input)
        ∈ neighbours g (v - rebaseShift (acceptedPairs input)).toNat := by
  obtain ⟨_, _, n, _, _, hc, hr⟩ := compile_ok malloc input true g h
  have hs := strict_imp_src_le (finalEdges_strict input true)
  have hA : (u, v) ∈ acceptedPairs input := (mem_dropLoops _ _).2 ⟨huv, hne⟩
  have h1 : (u - rebaseShift (acceptedPairs input), v - rebaseShift (acceptedPairs input))
      ∈ finalEdges input true := by
    rw [mem_finalEdges, mem_workingSet]
    left
    simpa using hA
  have h2 : (v - rebaseShift (acceptedPairs input), u - rebaseShift (acceptedPairs input))
      ∈ finalEdges input true := by
    rw [mem_finalEdges, mem_workingSet]
    right
    simpa using hA
  have r1 := hr _ h1
  simp only at r1
  constructor
  · rw [mem_neighbours g n _ hc hs _ (by omega)]
    rw [Int.toNat_of_nonneg r1.1]
    exact h1
  · rw [mem_neighbours g n _ hc hs _ (by omega)]
    rw [Int.toNat_of_nonneg r1.2.2.1]
    exact h2

theorem compile_symmetric_witness :
    compile (fun _ => true) "1 3\n".toList true
      = .ok ⟨3, 2, [0, 1, 1, 2], [2, 0], none⟩ ∧
    ((1 : Int), (3 : Int)) ∈ parsedPairs "1 3\n".toList ∧
    (3 : Int) - rebaseShift (acceptedPairs "1 3\n".toList)
      ∈ neighbours ⟨3, 2, [0, 1, 1, 2], [2, 0], none⟩
          ((1 : Int) - rebaseShift (acceptedPairs "1 3\n".toList)).toNat :=
  ⟨by decide, by decide,
    (compile_symmetric (fun _ => true) "1 3\n".toList ⟨3, 2, [0, 1, 1, 2], [2, 0], none⟩
      (by decide) 1 3 (by decide) (by decide)).1⟩

/-! ## Re-basing -/

theorem foldMin_eq_iff (A : List (Int × Int)) (m : Int) (hm : m < INT_MAX) :
    foldMin INT_MAX A = m ↔ HasMinId A m := by
  constructor
  · intro h
    refine ⟨fun p hp => by have := foldMin_le_mem INT_MAX A p hp; omega, ?_⟩
    rcases foldMin_attained INT_MAX A with e | ⟨p, hp, e⟩
    · omega
    · exact ⟨p, hp, by omega⟩
  · intro ⟨hall, p, hp, hp1⟩
    have h1 := foldMin_le_mem INT_MAX A p hp
    have h2 := foldMin_ge m INT_MAX A (by omega) hall
    omega

theorem foldMax_shiftUp (m : Int) (A : List (Int × Int)) :
    foldMax m (shiftUp A) = foldMax (m - 1) A + 1 := by
  induction A generalizing m with
  | nil => simp [shiftUp, foldMax]
  | cons p t ih =>
    have e : shiftUp (p :: t) = (p.1 + 1, p.2 + 1) :: shiftUp t := rfl
    rw [e, foldMax_cons, foldMax_cons, ih]
    congr 2
    simp only
    omega

theorem foldMax_init (m m1 : Int) (A : List (Int × Int)) (hA : A ≠ [])
    (h : ∀ p ∈ A, m ≤ p.1 ∧ m1 ≤ p.1) : foldMax m A = foldMax m1 A := by
  cases A with
  | nil => exact absurd rfl hA
  | cons p t =>
    rw [foldMax_cons, foldMax_cons]
    have := h p (by simp)
    congr 1
    omega

theorem dropLoops_shiftUp (l : List (Int × Int)) :
    dropLoops (shiftUp l) = shiftUp (dropLoops l) := by
  induction l with
  | nil => rfl
  | cons p t ih =>
    have e : shiftUp (p :: t) = (p.1 + 1, p.2 + 1) :: shiftUp t := rfl
    rw [e]
    unfold dropLoops at ih ⊢
    by_cases h : p.1 = p.2
    · rw [List.filter_cons_of_neg (by simpa using h),
        List.filter_cons_of_neg (by simpa using h), ih]
    · rw [List.filter_cons_of_pos (by simpa using h),
        List.filter_cons_of_pos (by simpa using h), ih]
      rfl

theorem workingSet_shiftUp (sym : Bool) (A : List (Int × Int)) :
    workingSet sym (shiftUp A) = shiftUp (workingSet sym A) := by
  induction A with
  | nil => rfl
  | cons p t ih =>
    have e : shiftUp (p :: t) = (p.1 + 1, p.2 + 1) :: shiftUp t := rfl
    rw [e, workingSet_cons, workingSet_cons, ih]
    cases sym <;> simp [shiftUp]

theorem map_pred_shiftUp (E : List (Int × Int)) :
    (shiftUp E).map (fun e => (e.1 - 1, e.2 - 1)) = E := by
  unfold shiftUp
  rw [List.map_map]
  conv_rhs => rw [← List.map_id E]
  apply List.map_congr_left
  intro p _
  simp

theorem scanLoop_eq (sym : Bool) (input : List Char)
    (h : ∀ p ∈ parsedPairs input, ¬ isFatal p) :
    scanLoop sym (fgetsLines input []) { edges := [], min_id := INT_MAX, max_id := -1 }
      = .ok { edges := workingSet sym (acceptedPairs input)
              min_id := foldMin INT_MAX (acceptedPairs input)
              max_id := foldMax (-1) (acceptedPairs input) } :=
  (scanLoop_ok sym _ _ _).2 ⟨h, by simp [acceptedPairs, parsedPairs]⟩

/-- C7 (as stated, refuted): the edge list `0 0`, `1 2` has least id 0, and so
has `0 1`, `2147483647 2147483647`; each compiles to a graph, while the list
with every id increased by 1 compiles to another graph in the first case and
ends with a fatal error in the second. -/
theorem shift_changes_graph :
    HasMinId (parsedPairs "0 0\n1 2\n".toList) 0 ∧
    parsedPairs "1 1\n2 3\n".toList = shiftUp (parsedPairs "0 0\n1 2\n".toList) ∧
    compile (fun _ => true) "0 0\n1 2\n".toList false = .ok ⟨2, 1, [0, 1, 1], [1], none⟩ ∧
    compile (fun _ => true) "1 1\n2 3\n".toList false
      = .ok ⟨4, 1, [0, 0, 0, 1, 1], [3], none⟩ ∧
    compile (fun _ => true) "1 1\n2 3\n".toList false
      ≠ compile (fun _ => true) "0 0\n1 2\n".toList false ∧
    HasMinId (parsedPairs "0 1\n2147483647 2147483647\n".toList) 0 ∧
    parsedPairs "1 2\n2147483648 2147483648\n".toList
      = shiftUp (parsedPairs "0 1\n2147483647 2147483647\n".toList) ∧
    compile (fun _ => true) "0 1\n2147483647 2147483647\n".toList false
      = .ok ⟨2, 1, [0, 1, 1], [1], none⟩ ∧
    compile (fun _ => true) "1 2\n2147483648 2147483648\n".toList false
      = .error (.code 4) := by
  decide

/-- C7 (amended): for every edge list whose ids all lie in `0 .. INT_MAX - 1`
and whose least id over the pairs that are not self-loops is 0, the edge list
with every id increased by 1 compiles, under the same option, to the same
result: the same node count, edge count, offsets and adjacency. -/
theorem compile_shiftUp (malloc : Nat → Bool) (input input1 : List Char) (sym : Bool)
    (hrange : ∀ p ∈ parsedPairs input, 0 ≤ p.1 ∧ p.1 < INT_MAX ∧ 0 ≤ p.2 ∧ p.2 < INT_MAX)
    (hmin : HasMinId (acceptedPairs input) 0)
    (hshift : parsedPairs input1 = shiftUp (parsedPairs input)) :
    compile malloc input1 sym = compile malloc input sym := by
  have hA1 : acceptedPairs input1 = shiftUp (acceptedPairs input) := by
    unfold acceptedPairs
    rw [hshift, dropLoops_shiftUp]
  have hnf : ∀ p ∈ parsedPairs input, ¬ isFatal p := by
    intro p hp
    have := hrange p hp
    unfold isFatal
    omega
  have hnf1 : ∀ p ∈ parsedPairs input1, ¬ isFatal p := by
    intro p hp
    rw [hshift] at hp
    obtain ⟨q, hq, rfl⟩ := List.mem_map.1 hp
    have := hrange q hq
    unfold isFatal
    simp only
    omega
  obtain ⟨hall, a, ha, ha0⟩ := hmin
  have hne : acceptedPairs input ≠ [] := List.ne_nil_of_mem ha
  have hW : (workingSet sym (acceptedPairs input)).isEmpty = false := by
    cases hw : workingSet sym (acceptedPairs input) with
    | nil =>
      have := (mem_workingSet sym _ a).2 (Or.inl ha)
      rw [hw] at this
      exact absurd this (List.not_mem_nil a)
    | cons _ _ => rfl
  have hW1 : (shiftUp (workingSet sym (acceptedPairs input))).isEmpty = false := by
    unfold shiftUp
    cases hw : workingSet sym (acceptedPairs input) with
    | nil => rw [hw] at hW; exact absurd hW (by simp)
    | cons _ _ => rfl
  have hm0 : foldMin INT_MAX (acceptedPairs input) = 0 :=
    (foldMin_eq_iff _ 0 (by decide)).2 ⟨hall, a, ha, ha0⟩
  have hm1 : foldMin INT_MAX (shiftUp (acceptedPairs input)) = 1 := by
    rw [foldMin_eq_iff _ 1 (by decide)]
    refine ⟨fun p hp => ?_, (a.1 + 1, a.2 + 1), List.mem_map.2 ⟨a, ha, rfl⟩, by simp only; omega⟩
    obtain ⟨q, hq, rfl⟩ := List.mem_map.1 hp
    have := hall q hq
    simp only
    omega
  have hmax : foldMax (-1) (shiftUp (acceptedPairs input)) - 1
      = foldMax (-1) (acceptedPairs input) := by
    rw [foldMax_shiftUp, foldMax_init (-1 - 1) (-1) _ hne
      (fun p hp => by have := hall p hp; omega)]
    omega
  unfold compile
  rw [scanLoop_eq sym input hnf, scanLoop_eq sym input1 hnf1, hA1, workingSet_shiftUp]
  simp only
  unfold buildGraph
  simp only [hW, hW1, hm0, hm1, Bool.false_eq_true, if_false, if_true, map_pred_shiftUp, hmax]
  simp

theorem compile_shiftUp_witness :
    HasMinId (acceptedPairs "0 1\n1 2\n".toList) 0 ∧
    parsedPairs "1 2\n2 3\n".toList = shiftUp (parsedPairs "0 1\n1 2\n".toList) ∧
    compile (fun _ => true) "1 2\n2 3\n".toList true
      = compile (fun _ => true) "0 1\n1 2\n".toList true :=
  ⟨by decide, by decide,
    compile_shiftUp (fun _ => true) "0 1\n1 2\n".toList "1 2\n2 3\n".toList true
      (by decide) (by decide) (by decide)⟩

/-! ## Truncated files -/

theorem readLongs_length (count : Nat) (f : List Byte) :
    (readLongs count f).length = min count (f.length / 8) := by
  induction count generalizing f with
  | zero => simp [readLongs]
  | succ n ih =>
    unfold readLongs
    by_cases h : f.length < 8
    · rw [if_pos h]
      have : f.length / 8 = 0 := by omega
      simp [this]
    · rw [if_neg h, List.length_cons, ih, List.length_drop]
      omega

/-- What `readECLgraph` does with a file that starts with valid counts
`nodes ≥ 1` and `edges ≥ 0` and goes on with `body`, when the allocator grants
the buffers: too few offsets or adjacency items end with the matching read
error; a complete body with fewer than 8 bytes left is read as a graph without
weights; more than 8 bytes but fewer than `8 * edges` end with the weight read
error. -/
theorem readECLgraph_body (malloc : Nat → Bool) (nodes edges : Int) (body : List Byte)
    (hn : 1 ≤ nodes) (he : 0 ≤ edges) (tn : isLong nodes) (te : isLong edges)
    (hm1 : malloc (sizeBytes (nodes + 1)) = true) (hm2 : malloc (sizeBytes edges) = true) :
    (body.length < 8 * (nodes + 1) →
      readECLgraph malloc (encodeLong nodes ++ encodeLong edges ++ body)
        = .error .failedIndex) ∧
    (8 * (nodes + 1) ≤ body.length → (body.length : Int) < 8 * (nodes + 1 + edges) →
      readECLgraph malloc (encodeLong nodes ++ encodeLong edges ++ body)
        = .error .failedList) ∧
    (8 * (nodes + 1 + edges) ≤ body.length → (body.length : Int) < 8 * (nodes + 1 + edges) + 8 →
      readECLgraph malloc (encodeLong nodes ++ encodeLong edges ++ body)
        = .ok { nodes := nodes, edges := edges
                nindex := readLongs (nodes + 1).toNat body
                nlist := readLongs edges.toNat (body.drop (8 * (nodes + 1).toNat))
                eweight := none }) ∧
    (8 * (nodes + 1 + edges) + 8 ≤ body.length →
      (body.length : Int) < 8 * (nodes + 1 + edges) + 8 * edges →
      readECLgraph malloc (encodeLong nodes ++ encodeLong edges ++ body)
        = .error .failedWeights) := by
  have s1 : ∀ (x : Int) (hx : isLong x) (rest : List Byte),
      fread 1 (encodeLong x ++ rest) = ([x], rest) := by
    intro x hx rest
    have := fread_encode [x] (by simpa using hx) rest
    simpa using this
  have hread : readECLgraph malloc (encodeLong nodes ++ encodeLong edges ++ body)
      = (let r3 := fread (nodes + 1).toNat body
         if (r3.1.length : Int) ≠ nodes + 1 then .error .failedIndex else
         let r4 := fread edges.toNat r3.2
         if (r4.1.length : Int) ≠ edges then .error .failedList else
         let r5 := fread edges.toNat r4.2
         if r5.1.length = 0 then
           .ok { nodes := nodes, edges := edges, nindex := r3.1, nlist := r4.1, eweight := none }
         else if (r5.1.length : Int) ≠ edges then .error .failedWeights
         else
           .ok { nodes := nodes, edges := edges, nindex := r3.1, nlist := r4.1,
                 eweight := some r5.1 }) := by
    unfold readECLgraph
    simp only [List.append_assoc]
    rw [s1 nodes tn]
    simp only [List.length_singleton, ne_eq, not_true_eq_false, if_false, List.headD_cons]
    rw [s1 edges te]
    simp only [List.length_singleton, ne_eq, not_true_eq_false, if_false, List.headD_cons]
    rw [if_neg (by omega), hm1, hm2]
    simp only [Bool.and_self, Bool.not_true, Bool.false_eq_true, if_false]
  rw [hread]
  simp only [fread, readLongs_length, List.length_drop]
  refine ⟨fun h => ?_, fun h1 h2 => ?_, fun h1 h2 => ?_, fun h1 h2 => ?_⟩
  · rw [if_pos (by omega)]
  · rw [if_neg (by omega), if_pos (by omega)]
  · rw [if_neg (by omega), if_neg (by omega), if_pos (by omega)]
  · rw [if_neg (by omega), if_neg (by omega), if_neg (by omega), if_pos (by omega)]

/-- C11 (the code at the failing input): the file of the graph with one node,
one edge, offsets `[0, 1]` and adjacency `[0]`, followed by one more byte, is
read as that graph without weights, and so is the same file followed by seven
bytes; with eight more bytes the single weight is read, and a file with two
edges followed by one weight only ends with the weight read error. -/
theorem readECLgraph_short_tail :
    readECLgraph (fun _ => true)
        (encodeLong 1 ++ encodeLong 1 ++ encodeLong 0 ++ encodeLong 1 ++ encodeLong 0 ++ [7])
      = .ok ⟨1, 1, [0, 1], [0], none⟩ ∧
    readECLgraph (fun _ => true)
        (encodeLong 1 ++ encodeLong 1 ++ encodeLong 0 ++ encodeLong 1 ++ encodeLong 0
          ++ [1, 2, 3, 4, 5, 6, 7])
      = .ok ⟨1, 1, [0, 1], [0], none⟩ ∧
    readECLgraph (fun _ => true)
        (encodeLong 1 ++ encodeLong 1 ++ encodeLong 0 ++ encodeLong 1 ++ encodeLong 0
          ++ encodeLong 5)
      = .ok ⟨1, 1, [0, 1], [0], some [5]⟩ ∧
    readECLgraph (fun _ => true)
        (encodeLong 1 ++ encodeLong 2 ++ encodeLong 0 ++ encodeLong 2 ++ encodeLong 0
          ++ encodeLong 0 ++ encodeLong 5)
      = .error .failedWeights := by
  decide

/-! ## The ways the converter ends -/

theorem scanStep_error (sym : Bool) (st : ScanState) (line : List Char) (e : Exit)
    (h : scanStep sym st line = .error e) : e = .code 3 ∨ e = .code 4 := by
  unfold scanStep at h
  split at h
  · exact absurd h (by simp)
  · split at h
    · exact absurd h (by simp)
    · split at h
      · left; simpa using h.symm
      · split at h
        · right; simpa using h.symm
        · split at h <;> exact absurd h (by simp)

theorem scanLoop_error (sym : Bool) (lines : List (List Char)) (st : ScanState) (e : Exit)
    (h : scanLoop sym lines st = .error e) : e = .code 3 ∨ e = .code 4 := by
  induction lines generalizing st with
  | nil => exact absurd h (by simp [scanLoop])
  | cons line rest ih =>
    unfold scanLoop at h
    cases hs : scanStep sym st line with
    | error x =>
      rw [hs] at h
      simp only [Except.error.injEq] at h
      subst h
      exact scanStep_error sym st line x hs
    | ok st1 =>
      rw [hs] at h
      exact ih st1 h

theorem degreeCount_error (nodes : Int) (E : List (Int × Int)) (a : List Int) (e : Exit)
    (h : degreeCount nodes E a = .error e) : e = .code 9 := by
  induction E generalizing a with
  | nil => exact absurd h (by simp [degreeCount])
  | cons p t ih =>
    unfold degreeCount at h
    split at h
    · simpa using h.symm
    · exact ih _ h

theorem fillAdjacency_error (nodes : Int) (E : List (Int × Int)) (cur nlist : List Int)
    (e : Exit) (h : fillAdjacency nodes E cur nlist = .error e) : e = .code 10 := by
  induction E generalizing cur nlist with
  | nil => exact absurd h (by simp [fillAdjacency])
  | cons p t ih =>
    unfold fillAdjacency at h
    split at h
    · simpa using h.symm
    · exact ih _ _ h

theorem buildCSR_error (malloc : Nat → Bool) (E : List (Int × Int)) (M : Int) (e : Exit)
    (h : buildCSR malloc E M = .error e) :
    e = .code 7 ∨ e = .code 8 ∨ e = .code 9 ∨ e = .code 10 ∨ e = .undefined := by
  unfold buildCSR at h
  simp only at h
  split at h
  · left; simpa using h.symm
  split at h
  · right; left; simpa using h.symm
  split at h
  · rename_i x hx
    simp only [Except.error.injEq] at h
    subst h
    right; right; left
    exact degreeCount_error _ _ _ _ hx
  split at h
  · right; right; right; right; simpa using h.symm
  split at h
  · rename_i x hx
    simp only [Except.error.injEq] at h
    subst h
    right; right; right; left
    exact fillAdjacency_error _ _ _ _ _ hx
  · exact absurd h (by simp)

theorem buildGraph_error (malloc : Nat → Bool) (st : ScanState) (e : Exit)
    (h : buildGraph malloc st = .error e) :
    (e = .code 5 ∧ st.edges = []) ∨
    (st.edges ≠ [] ∧
      (e = .code 6 ∨ e = .code 7 ∨ e = .code 8 ∨ e = .code 9 ∨ e = .code 10 ∨ e = .undefined)) := by
  unfold buildGraph at h
  by_cases he : st.edges.isEmpty = true
  · rw [if_pos he] at h
    left
    exact ⟨by simpa using h.symm, by simpa using he⟩
  rw [if_neg he] at h
  right
  refine ⟨by simpa using he, ?_⟩
  by_cases hm : st.min_id = 1
  · simp only [hm, if_true] at h
    rw [if_neg (by decide)] at h
    right; exact buildCSR_error _ _ _ _ h
  · simp only [hm, if_false] at h
    split at h
    · left; simpa using h.symm
    · right; exact buildCSR_error _ _ _ _ h

theorem workingSet_eq_nil (sym : Bool) (A : List (Int × Int)) :
    workingSet sym A = [] ↔ A = [] := by
  cases A with
  | nil => simp [workingSet]
  | cons p t => simp [workingSet_cons]

/-- The converter on an input without a fatal pair: the part after the scan,
on the state the scan leaves. -/
theorem compile_eq_buildGraph (malloc : Nat → Bool) (input : List Char) (sym : Bool)
    (h : ∀ p ∈ parsedPairs input, ¬ isFatal p) :
    compile malloc input sym
      = buildGraph malloc { edges := workingSet sym (acceptedPairs input)
                            min_id := foldMin INT_MAX (acceptedPairs input)
                            max_id := foldMax (-1) (acceptedPairs input) } := by
  unfold compile
  rw [scanLoop_eq sym input h]

/-- The converter on an input with a fatal pair ends with `return 3` or
`return 4`. -/
theorem compile_fatal (malloc : Nat → Bool) (input : List Char) (sym : Bool)
    (h : ∃ p ∈ parsedPairs input, isFatal p) :
    compile malloc input sym = .error (.code 3) ∨ compile malloc input sym = .error (.code 4) := by
  unfold compile
  cases hs : scanLoop sym (fgetsLines input []) { edges := [], min_id := INT_MAX, max_id := -1 }
    with
  | ok st =>
    obtain ⟨p, hp, hf⟩ := h
    exact absurd hf (((scanLoop_ok sym _ _ st).1 hs).1 p hp)
  | error e =>
    rcases scanLoop_error sym _ _ e hs with h1 | h1 <;> subst h1 <;> simp

theorem compile_not_fatal (malloc : Nat → Bool) (input : List Char) (sym : Bool)
    (h : ∀ p ∈ parsedPairs input, ¬ isFatal p) :
    compile malloc input sym ≠ .error (.code 3) ∧ compile malloc input sym ≠ .error (.code 4) := by
  rw [compile_eq_buildGraph malloc input sym h]
  constructor <;> intro hb <;>
    rcases buildGraph_error _ _ _ hb with ⟨h1, _⟩ | ⟨_, h1⟩ <;> revert h1 <;> decide

/-- C12: the converter ends with the fatal exit `return 3` or `return 4`, and so
without a graph, exactly when some line that is neither comment nor blank
yields two integers one of which is negative or above `INT_MAX`, whatever the
other lines hold and also when the two integers are equal; line by line, the
scan step ends with one of these exits exactly on such a line. -/
theorem compile_fatal_iff (malloc : Nat → Bool) (input : List Char) (sym : Bool) :
    ((compile malloc input sym = .error (.code 3) ∨ compile malloc input sym = .error (.code 4))
      ↔ ∃ line ∈ fgetsLines input [], ∃ u v, is_comment_or_blank line = false ∧
          sscanf line = some (u, v) ∧ (u < 0 ∨ v < 0 ∨ u > INT_MAX ∨ v > INT_MAX)) ∧
    ((∃ g, compile malloc input sym = .ok g) →
      ∀ line ∈ fgetsLines input [], ∀ u v, is_comment_or_blank line = false →
        sscanf line = some (u, v) → 0 ≤ u ∧ u ≤ INT_MAX ∧ 0 ≤ v ∧ v ≤ INT_MAX) ∧
    (∀ (st : ScanState) (line : List Char) (u v : Int), is_comment_or_blank line = false →
      sscanf line = some (u, v) →
      ((scanStep sym st line = .error (.code 3) ∨ scanStep sym st line = .error (.code 4))
        ↔ (u < 0 ∨ v < 0 ∨ u > INT_MAX ∨ v > INT_MAX))) := by
  have hpl : ∀ (line : List Char) (u v : Int), is_comment_or_blank line = false →
      sscanf line = some (u, v) → parseLine line = some (u, v) := by
    intro line u v h1 h2
    simp [parseLine, h1, h2]
  have hlines : (∃ p ∈ parsedPairs input, isFatal p) ↔
      ∃ line ∈ fgetsLines input [], ∃ u v, is_comment_or_blank line = false ∧
        sscanf line = some (u, v) ∧ (u < 0 ∨ v < 0 ∨ u > INT_MAX ∨ v > INT_MAX) := by
    unfold parsedPairs
    constructor
    · rintro ⟨p, hp, hf⟩
      obtain ⟨line, hl, hpl2⟩ := List.mem_filterMap.1 hp
      refine ⟨line, hl, p.1, p.2, ?_⟩
      unfold parseLine at hpl2
      split at hpl2
      · exact absurd hpl2 (by simp)
      · rename_i hc
        exact ⟨by simpa using hc, hpl2, hf⟩
    · rintro ⟨line, hl, u, v, h1, h2, h3⟩
      exact ⟨(u, v), List.mem_filterMap.2 ⟨line, hl, hpl line u v h1 h2⟩, h3⟩
  refine ⟨⟨fun h => ?_, fun h => compile_fatal malloc input sym (hlines.2 h)⟩, ?_, ?_⟩
  · by_contra hno
    have hnf : ∀ p ∈ parsedPairs input, ¬ isFatal p :=
      fun p hp hf => hno (hlines.1 ⟨p, hp, hf⟩)
    have := compile_not_fatal malloc input sym hnf
    rcases h with h | h
    · exact this.1 h
    · exact this.2 h
  · rintro ⟨g, hg⟩ line hl u v h1 h2
    have hnf := (compile_ok malloc input sym g hg).1 (u, v)
      (List.mem_filterMap.2 ⟨line, hl, hpl line u v h1 h2⟩)
    unfold isFatal at hnf
    simp only at hnf
    omega
  · intro st line u v h1 h2
    by_cases h3 : u < 0 ∨ v < 0
    · have hv : scanStep sym st line = .error (.code 3) := by
        unfold scanStep
        simp only [h1, h2, Bool.false_eq_true, if_false, h3, if_true]
      rw [hv]
      exact ⟨fun _ => by omega, fun _ => Or.inl rfl⟩
    · by_cases h4 : u > INT_MAX ∨ v > INT_MAX
      · have hv : scanStep sym st line = .error (.code 4) := by
          unfold scanStep
          simp only [h1, h2, Bool.false_eq_true, if_false, h3, h4, if_true]
        rw [hv]
        exact ⟨fun _ => by omega, fun _ => Or.inr rfl⟩
      · have hv : ∃ st1, scanStep sym st line = .ok st1 := by
          unfold scanStep
          simp only [h1, h2, Bool.false_eq_true, if_false, h3, h4]
          by_cases h5 : u = v
          · exact ⟨_, if_pos h5⟩
          · exact ⟨_, if_neg h5⟩
        obtain ⟨st1, hv⟩ := hv
        rw [hv]
        constructor
        · intro h
          rcases h with h | h <;> exact absurd h (by simp)
        · intro h
          exfalso
          omega

theorem dropLoops_eq_nil (l : List (Int × Int)) :
    dropLoops l = [] ↔ ∀ p ∈ l, p.1 = p.2 := by
  unfold dropLoops
  rw [List.filter_eq_nil_iff]
  simp

theorem mem_parsedPairs (input : List Char) (p : Int × Int) :
    p ∈ parsedPairs input ↔
      ∃ line ∈ fgetsLines input [], is_comment_or_blank line = false ∧ sscanf line = some p := by
  unfold parsedPairs
  rw [List.mem_filterMap]
  constructor
  · rintro ⟨line, hl, hp⟩
    unfold parseLine at hp
    split at hp
    · exact absurd hp (by simp)
    · rename_i hc
      exact ⟨line, hl, by simpa using hc, hp⟩
  · rintro ⟨line, hl, hc, hp⟩
    exact ⟨line, hl, by simp [parseLine, hc, hp]⟩

/-- C13: the converter ends with `return 5` (no edges read) exactly when every
line of the input is a comment or blank, or yields no two integers, or yields
a self-loop with an id in `0 .. INT_MAX`; the lines `# comment` and `1 1` end
that way. -/
theorem compile_empty_iff (malloc : Nat → Bool) (input : List Char) (sym : Bool) :
    (compile malloc input sym = .error (.code 5) ↔
      ∀ line ∈ fgetsLines input [], is_comment_or_blank line = true ∨ sscanf line = none ∨
        ∃ u, sscanf line = some (u, u) ∧ 0 ≤ u ∧ u ≤ INT_MAX) ∧
    (compile malloc input sym = .error (.code 5) ↔
      (∀ p ∈ parsedPairs input, ¬ isFatal p) ∧ acceptedPairs input = []) ∧
    compile malloc "# comment\n1 1\n".toList sym = .error (.code 5) := by
  have hmain : compile malloc input sym = .error (.code 5) ↔
      (∀ p ∈ parsedPairs input, ¬ isFatal p) ∧ acceptedPairs input = [] := by
    constructor
    · intro h
      by_cases hf : ∃ p ∈ parsedPairs input, isFatal p
      · rcases compile_fatal malloc input sym hf with h1 | h1 <;> rw [h1] at h <;>
          exact absurd h (by decide)
      · have hnf : ∀ p ∈ parsedPairs input, ¬ isFatal p := fun p hp hp2 => hf ⟨p, hp, hp2⟩
        refine ⟨hnf, ?_⟩
        rw [compile_eq_buildGraph malloc input sym hnf] at h
        rcases buildGraph_error _ _ _ h with ⟨_, h1⟩ | ⟨_, h1⟩
        · exact (workingSet_eq_nil sym _).1 h1
        · exact absurd h1 (by decide)
    · rintro ⟨hnf, hA⟩
      rw [compile_eq_buildGraph malloc input sym hnf, hA]
      rfl
  refine ⟨?_, hmain, ?_⟩
  · rw [hmain]
    unfold acceptedPairs
    rw [dropLoops_eq_nil]
    constructor
    · rintro ⟨hnf, hl⟩ line hline
      by_cases hc : is_comment_or_blank line = true
      · exact Or.inl hc
      · right
        cases hs : sscanf line with
        | none => exact Or.inl rfl
        | some p =>
          right
          have hp : p ∈ parsedPairs input :=
            (mem_parsedPairs input p).2 ⟨line, hline, by simpa using hc, hs⟩
          have h1 := hl p hp
          have h2 := hnf p hp
          unfold isFatal at h2
          refine ⟨p.1, ?_, by omega, by omega⟩
          exact congrArg some (Prod.ext rfl h1.symm)
    · intro h
      have key : ∀ p ∈ parsedPairs input, p.1 = p.2 ∧ 0 ≤ p.1 ∧ p.1 ≤ INT_MAX := by
        intro p hp
        obtain ⟨line, hline, hc, hs⟩ := (mem_parsedPairs input p).1 hp
        rcases h line hline with h1 | h1 | ⟨u, h1, h2, h3⟩
        · rw [hc] at h1; exact absurd h1 (by simp)
        · rw [hs] at h1; exact absurd h1 (by simp)
        · rw [hs] at h1
          simp only [Option.some.injEq] at h1
          subst h1
          exact ⟨rfl, h2, h3⟩
      refine ⟨fun p hp => ?_, fun p hp => (key p hp).1⟩
      have := key p hp
      unfold isFatal
      omega
  · have hnf : ∀ p ∈ parsedPairs "# comment\n1 1\n".toList, ¬ isFatal p := by decide
    rw [compile_eq_buildGraph malloc _ sym hnf]
    have hA : acceptedPairs "# comment\n1 1\n".toList = [] := by decide
    rw [hA]
    rfl

/-! ## The re-basing rule and the node count -/

/-- The part of `main` after the scan, in terms of `rebased`. -/
theorem buildGraph_rebased (malloc : Nat → Bool) (st : ScanState) :
    buildGraph malloc st =
      if st.edges.isEmpty then .error (.code 5)
      else if (rebased st).min_id < 0 then .error (.code 6)
      else buildCSR malloc (rebased st).edges (rebased st).max_id := rfl

/-- C14: on the variables the scan leaves for an input, the re-basing
decreases every endpoint of every recorded pair, and `max_id`, by exactly 1
when the least id of the accepted pairs that are not self-loops is 1, and
leaves them as they are for any other least id; the rest of `main` then works
on the re-based variables. The lines `5 3`, `3 5` have `min_id` 3, are not
re-based, and give 6 nodes, 2 edges, offsets `[0,0,0,0,1,1,2]` and adjacency
`[5,3]`. -/
theorem rebasing_rule (input : List Char) (sym : Bool) (st : ScanState)
    (hs : scanLoop sym (fgetsLines input []) { edges := [], min_id := INT_MAX, max_id := -1 }
      = .ok st) :
    (HasMinId (acceptedPairs input) 1 →
      (rebased st).edges = st.edges.map (fun e => (e.1 - 1, e.2 - 1)) ∧
      (rebased st).max_id = st.max_id - 1) ∧
    (¬ HasMinId (acceptedPairs input) 1 →
      (rebased st).edges = st.edges ∧ (rebased st).max_id = st.max_id) ∧
    (st.edges ≠ [] → ∀ malloc, buildGraph malloc st =
      if (rebased st).min_id < 0 then .error (.code 6)
      else buildCSR malloc (rebased st).edges (rebased st).max_id) ∧
    scanLoop false (fgetsLines "5 3\n3 5\n".toList [])
      { edges := [], min_id := INT_MAX, max_id := -1 } = .ok ⟨[(5, 3), (3, 5)], 3, 5⟩ ∧
    rebased ⟨[(5, 3), (3, 5)], 3, 5⟩ = ⟨[(5, 3), (3, 5)], 3, 5⟩ ∧
    compile (fun _ => true) "5 3\n3 5\n".toList false
      = .ok ⟨6, 2, [0, 0, 0, 0, 1, 1, 2], [5, 3], none⟩ := by
  obtain ⟨_, hst⟩ := (scanLoop_ok sym _ _ st).1 hs
  have hmin : st.min_id = foldMin INT_MAX (acceptedPairs input) := by
    rw [hst]; rfl
  refine ⟨fun h => ?_, fun h => ?_, fun hne malloc => ?_, by decide, by decide, by decide⟩
  · have h1 : st.min_id = 1 := by rw [hmin]; exact (foldMin_eq_one_iff _).2 h
    unfold rebased
    rw [if_pos h1]
    exact ⟨rfl, rfl⟩
  · have h1 : ¬ st.min_id = 1 := by
      rw [hmin]
      exact fun e => h ((foldMin_eq_one_iff _).1 e)
    unfold rebased
    rw [if_neg h1]
    exact ⟨rfl, rfl⟩
  · rw [buildGraph_rebased, if_neg]
    cases hE : st.edges with
    | nil => exact absurd hE hne
    | cons _ _ => simp

theorem rebasing_rule_witness :
    scanLoop true (fgetsLines "1 2\n".toList []) { edges := [], min_id := INT_MAX, max_id := -1 }
      = .ok ⟨[(1, 2), (2, 1)], 1, 2⟩ ∧
    HasMinId (acceptedPairs "1 2\n".toList) 1 ∧
    (rebased ⟨[(1, 2), (2, 1)], 1, 2⟩).edges = [(0, 1), (1, 0)] ∧
    (rebased ⟨[(1, 2), (2, 1)], 1, 2⟩).max_id = 1 :=
  ⟨by decide, by decide,
    ((rebasing_rule "1 2\n".toList true ⟨[(1, 2), (2, 1)], 1, 2⟩ (by decide)).1 (by decide)).1,
    ((rebasing_rule "1 2\n".toList true ⟨[(1, 2), (2, 1)], 1, 2⟩ (by decide)).1 (by decide)).2⟩

/-- The node count `max_id + 1` computed in `int` is the mathematical value,
and at least 1, as long as `max_id` is below `INT_MAX`. -/
theorem wrapInt_succ (M : Int) (h0 : 0 ≤ M) (h1 : M < INT_MAX) :
    wrapInt (M + 1) = M + 1 ∧ 1 ≤ wrapInt (M + 1) := by
  unfold INT_MAX at h1
  unfold wrapInt
  omega

/-- C15 (the code at the failing input): the line `0 2147483647` passes the
scan with `max_id = INT_MAX`; the node count `max_id + 1` computed in `int` is
`-2147483648`, not `2147483648`, and the run ends with `return 8` whatever the
allocator grants. -/
theorem node_count_wraps :
    scanLoop false (fgetsLines "0 2147483647\n".toList [])
        { edges := [], min_id := INT_MAX, max_id := -1 }
      = .ok ⟨[(0, 2147483647)], 0, 2147483647⟩ ∧
    rebased ⟨[(0, 2147483647)], 0, 2147483647⟩ = ⟨[(0, 2147483647)], 0, 2147483647⟩ ∧
    wrapInt (2147483647 + 1) = -2147483648 ∧
    ∀ malloc, compile malloc "0 2147483647\n".toList false = .error (.code 8) := by
  refine ⟨by decide, by decide, by decide, fun malloc => ?_⟩
  have hnf : ∀ p ∈ parsedPairs "0 2147483647\n".toList, ¬ isFatal p := by decide
  rw [compile_eq_buildGraph malloc _ false hnf]
  have hA : acceptedPairs "0 2147483647\n".toList = [(0, 2147483647)] := by decide
  rw [hA]
  rfl

/-! ## The write positions of the fill pass -/

/-- The recorded fill and the fill of `main` leave the same buffer. -/
theorem fillTrace_nlist (nodes : Int) (E : List (Int × Int)) (cur nlist : List Int) :
    fillAdjacency nodes E cur nlist
      = (match fillTrace nodes E cur nlist with
         | .error x => .error x
         | .ok (_, _, l) => .ok l) := by
  induction E generalizing cur nlist with
  | nil => rfl
  | cons p t ih =>
    unfold fillAdjacency fillTrace
    by_cases h : p.2 < 0 ∨ p.2 ≥ nodes
    · rw [if_pos h, if_pos h]
    · rw [if_neg h, if_neg h]
      simp only
      rw [ih]
      cases fillTrace nodes t (cur.set p.1.toNat (cur.getD p.1.toNat 0 + 1))
        (nlist.set (cur.getD p.1.toNat 0).toNat p.2) <;> rfl

theorem countBelow_le_length (E : List (Int × Int)) (i : Int) : countBelow E i ≤ E.length := by
  unfold countBelow
  have := List.countP_le_length (fun p : Int × Int => decide (p.1 < i)) (l := E)
  omega

/-- The recorded fill on a list sorted by source: the `k`-th write goes to
position `k`, and at the end the cursor of node `i` has passed the edges of
source `i`. -/
theorem fillTrace_ok (n : Nat) (S : List (Int × Int))
    (hsrc : ∀ p ∈ S, 0 ≤ p.1 ∧ p.1 < n) (hdst : ∀ p ∈ S, 0 ≤ p.2 ∧ p.2 < n)
    (hsorted : S.Pairwise fun a b => a.1 ≤ b.1) (R : List (Int × Int)) :
    ∀ (P : List (Int × Int)) (cur nlist : List Int), S = P ++ R → cur.length = n →
      nlist.length = S.length →
      (∀ i : Nat, i < n → cur.getD i 0 = countBelow S i + countAt P i) →
      nlist.take P.length = P.map Prod.snd →
      ∃ curF, fillTrace n R cur nlist
          = .ok ((List.range' P.length R.length).map Int.ofNat, curF, S.map Prod.snd) ∧
        curF.length = n ∧
        ∀ i : Nat, i < n → curF.getD i 0 = countBelow S i + countAt S i := by
  induction R with
  | nil =>
    intro P cur nlist hS hcur hlen hinv htake
    rw [List.append_nil] at hS
    subst hS
    rw [List.take_of_length_le (by omega)] at htake
    exact ⟨cur, by rw [fillTrace, htake]; rfl, hcur, hinv⟩
  | cons p R ih =>
    intro P cur nlist hS hcur hlen hinv htake
    have hp : p ∈ S := by rw [hS]; simp
    obtain ⟨s0, s1⟩ := hsrc p hp
    obtain ⟨d0, d1⟩ := hdst p hp
    have hpw := hsorted
    rw [hS, List.pairwise_append] at hpw
    obtain ⟨_, hpR, hPR⟩ := hpw
    rw [List.pairwise_cons] at hpR
    have hpos : cur.getD p.1.toNat 0 = P.length := by
      have e : ((p.1.toNat : Nat) : Int) = p.1 := by omega
      rw [hinv p.1.toNat (by omega), e, hS, countBelow_append,
        countBelow_eq_zero (p :: R) p.1 (by
          intro q hq
          rcases List.mem_cons.mp hq with h | h
          · rw [h]
          · exact hpR.1 q h)]
      have := countBelow_succ P p.1
      have h2 := countBelow_eq_length P (p.1 + 1) (by
        intro q hq
        have := hPR q hq p (by simp)
        omega)
      omega
    have hlt : P.length < nlist.length := by rw [hlen, hS]; simp
    obtain ⟨curF, hfill, hlenF, hF⟩ := ih (P ++ [p]) (cur.set p.1.toNat (↑P.length + 1))
      (nlist.set P.length p.2) (by rw [hS]; simp) (by rw [List.length_set]; exact hcur)
      (by rw [List.length_set]; exact hlen)
      (by
        intro i hi
        rw [getD_set _ _ _ _ (by omega), countAt_append, countAt_cons, countAt_nil]
        by_cases h : i = p.1.toNat
        · have e : p.1 = i := by omega
          rw [if_pos h, if_pos e]
          have := hinv i hi
          rw [h, hpos] at this
          rw [h]
          omega
        · have e : ¬ p.1 = i := by omega
          rw [if_neg h, if_neg e, hinv i hi]
          omega)
      (by
        rw [List.length_append, List.length_singleton, take_succ_set _ _ _ hlt, htake]
        simp)
    refine ⟨curF, ?_, hlenF, hF⟩
    rw [fillTrace, if_neg (by omega)]
    simp only [hpos, Int.toNat_ofNat]
    rw [hfill]
    simp only [List.length_append, List.length_singleton, List.length_cons]
    rfl

/-- The offsets after the degree count and the prefix sum, for sources in
range: cell `i` holds the number of edges of source below `i`. -/
theorem offsets_closed_form (n : Nat) (S : List (Int × Int))
    (hsrc : ∀ p ∈ S, 0 ≤ p.1 ∧ p.1 < n) :
    ∃ counts, degreeCount n S (List.replicate (n + 1) 0) = .ok counts ∧
      (prefixSum n counts).length = n + 1 ∧
      ∀ i : Nat, i ≤ n → (prefixSum n counts).getD i 0 = countBelow S i := by
  obtain ⟨counts, hc, hclen, hcget⟩ := degreeCount_ok n S hsrc (List.replicate (n + 1) 0)
    (by simp)
  have hps := prefixSum_steps S (fun p hp => (hsrc p hp).1) n counts hclen
    (by rw [(hcget 0).2, getD_replicate_zero])
    (fun j => by rw [(hcget j).1, getD_replicate_zero, zero_add]) n (le_refl n)
  have hpe : prefixSum (n : Int) counts
      = (List.range n).foldl (fun a k => a.set (k + 1) (a.getD (k + 1) 0 + a.getD k 0)) counts := by
    unfold prefixSum
    rw [Int.toNat_ofNat]
  rw [← hpe] at hps
  exact ⟨counts, hc, hps.1, fun i hi => by rw [hps.2 i, if_pos hi]⟩

/-- The place of an edge in a list sorted by source lies in the range of its
source. -/
theorem position_bounds (S P R : List (Int × Int)) (p : Int × Int) (hS : S = P ++ p :: R)
    (hs : S.Pairwise fun a b => a.1 ≤ b.1) :
    countBelow S p.1 ≤ P.length ∧ (P.length : Int) < countBelow S (p.1 + 1) ∧
      countBelow S (p.1 + 1) ≤ S.length := by
  have hpw := hs
  rw [hS, List.pairwise_append] at hpw
  obtain ⟨_, hpR, hPR⟩ := hpw
  rw [List.pairwise_cons] at hpR
  refine ⟨?_, ?_, countBelow_le_length S (p.1 + 1)⟩
  · rw [hS, countBelow_append, countBelow_eq_zero (p :: R) p.1 (by
      intro q hq
      rcases List.mem_cons.mp hq with h | h
      · rw [h]
      · exact hpR.1 q h)]
    have := countBelow_le_length P p.1
    omega
  · rw [hS, countBelow_append, countBelow_cons, if_pos (by omega),
      countBelow_eq_length P (p.1 + 1) (by
        intro q hq
        have := hPR q hq p (by simp)
        omega)]
    have : 0 ≤ countBelow R (p.1 + 1) := by unfold countBelow; omega
    omega

/-- C16: for every edge list sorted strictly by (source, destination) whose
sources and destinations lie in `[0, n)`, and every initial content of the
adjacency buffer: after the degree count and the prefix sum, the fill pass
ends normally, its `k`-th write goes to position `k` (so the positions written
are `0, 1, .., edges - 1`, each exactly once), every write position for an
edge of source `s` satisfies `offsets[s] ≤ pos < offsets[s+1] ≤ edges`, the
buffer ends as the list of destinations, and at the end `cur[i] = offsets[i+1]`
for every node `i`. -/
theorem fill_positions (n : Nat) (S : List (Int × Int))
    (hsrc : ∀ p ∈ S, 0 ≤ p.1 ∧ p.1 < n) (hdst : ∀ p ∈ S, 0 ≤ p.2 ∧ p.2 < n)
    (hsorted : S.Pairwise pairLT) (buf : List Int) (hbuf : buf.length = S.length) :
    ∃ counts cur,
      degreeCount n S (List.replicate (n + 1) 0) = .ok counts ∧
      fillTrace n S ((prefixSum n counts).take n) buf
        = .ok ((List.range S.length).map Int.ofNat, cur, S.map Prod.snd) ∧
      fillAdjacency n S ((prefixSum n counts).take n) buf = .ok (S.map Prod.snd) ∧
      (∀ (k : Nat) (hk : k < S.length),
        (prefixSum n counts).getD (S[k].1).toNat 0 ≤ k ∧
        (k : Int) < (prefixSum n counts).getD ((S[k].1).toNat + 1) 0 ∧
        (prefixSum n counts).getD ((S[k].1).toNat + 1) 0 ≤ S.length) ∧
      ∀ i : Nat, i < n → cur.getD i 0 = (prefixSum n counts).getD (i + 1) 0 := by
  have hs := strict_imp_src_le hsorted
  obtain ⟨counts, hc, hplen, hpget⟩ := offsets_closed_form n S hsrc
  obtain ⟨cur, hfill, _, hcur⟩ := fillTrace_ok n S hsrc hdst hs S []
    ((prefixSum (n : Int) counts).take n) buf (by simp) (by simp; omega) hbuf
    (fun i hi => by
      rw [getD_take _ _ _ hi, hpget i (by omega), countAt_nil, add_zero])
    (by simp)
  simp only [List.length_nil] at hfill
  rw [← List.range_eq_range'] at hfill
  refine ⟨counts, cur, hc, hfill, ?_, fun k hk => ?_, fun i hi => ?_⟩
  · rw [fillTrace_nlist, hfill]
  · have hmem : S[k] ∈ S := List.getElem_mem hk
    obtain ⟨s0, s1⟩ := hsrc _ hmem
    have e : ((S[k].1.toNat : Nat) : Int) = S[k].1 := by omega
    have hdec : S = S.take k ++ S[k] :: S.drop (k + 1) := by
      rw [← List.drop_eq_getElem_cons hk, List.take_append_drop]
    have hlenP : (S.take k).length = k := by rw [List.length_take]; omega
    obtain ⟨h1, h2, h3⟩ := position_bounds S _ _ _ hdec hs
    rw [hlenP] at h1 h2
    rw [hpget _ (by omega), hpget _ (by omega), e]
    push_cast
    rw [e]
    exact ⟨h1, h2, h3⟩
  · rw [hcur i hi, hpget (i + 1) (by omega)]
    push_cast
    rw [countBelow_succ]

theorem fill_positions_witness :
    (∀ p ∈ [((0 : Int), (1 : Int)), (1, 0), (1, 2), (2, 0)], 0 ≤ p.1 ∧ p.1 < (3 : Nat)) ∧
    (∀ p ∈ [((0 : Int), (1 : Int)), (1, 0), (1, 2), (2, 0)], 0 ≤ p.2 ∧ p.2 < (3 : Nat)) ∧
    [((0 : Int), (1 : Int)), (1, 0), (1, 2), (2, 0)].Pairwise pairLT ∧
    ∃ counts cur,
      degreeCount (3 : Nat) [(0, 1), (1, 0), (1, 2), (2, 0)] (List.replicate (3 + 1) 0)
        = .ok counts ∧
      fillTrace (3 : Nat) [(0, 1), (1, 0), (1, 2), (2, 0)] ((prefixSum (3 : Nat) counts).take 3)
          [9, 9, 9, 9]
        = .ok ((List.range 4).map Int.ofNat, cur, [1, 0, 2, 0]) :=
  ⟨by decide, by decide, by decide,
    (fill_positions 3 [(0, 1), (1, 0), (1, 2), (2, 0)] (by decide) (by decide) (by decide)
      [9, 9, 9, 9] rfl).imp fun _ h => h.imp fun _ h2 => ⟨h2.1, h2.2.1⟩⟩

/-! ## What `sscanf` reads of a line -/

theorem takeWhile_dropWhile_append (p : Char → Bool) (l t : List Char)
    (h : ∀ c, (l.dropWhile p ++ t).head? = some c → p c = false) :
    (l ++ t).takeWhile p = l.takeWhile p ∧ (l ++ t).dropWhile p = l.dropWhile p ++ t := by
  induction l with
  | nil =>
    simp only [List.dropWhile_nil, List.nil_append] at h
    cases t with
    | nil => simp
    | cons c t =>
      have hc := h c rfl
      simp [List.takeWhile_cons, List.dropWhile_cons, hc]
  | cons a l ih =>
    by_cases ha : p a = true
    · simp only [List.dropWhile_cons, ha, if_true] at h
      have := ih h
      simp only [List.cons_append, List.takeWhile_cons, List.dropWhile_cons, ha, if_true]
      exact ⟨congrArg _ this.1, this.2⟩
    · simp [List.takeWhile_cons, List.dropWhile_cons, ha]

theorem scanLL_rest_head (s : List Char) (v : Int) (r : List Char)
    (h : scanLL s = some (v, r)) : ∀ c, r.head? = some c → isdigit c = false := by
  unfold scanLL at h
  simp only at h
  generalize (if (s.dropWhile isspace).head? = some '-' ∨ (s.dropWhile isspace).head? = some '+'
    then (s.dropWhile isspace).tail else s.dropWhile isspace) = s2 at h
  by_cases hds : (s2.takeWhile isdigit).isEmpty = true
  · rw [if_pos hds] at h
    exact absurd h (by simp)
  · rw [if_neg hds] at h
    simp only [Option.some.injEq, Prod.mk.injEq] at h
    intro c hc
    rw [← h.2] at hc
    have := List.head?_dropWhile_not isdigit s2
    rw [hc] at this
    exact this

theorem scanLL_ne_nil (s : List Char) (v : Int) (r : List Char)
    (h : scanLL s = some (v, r)) : s ≠ [] := by
  intro e
  subst e
  simp [scanLL] at h

/-- One conversion reads the same when text is added after the line, as long
as the added text does not continue the digits. -/
theorem scanLL_append (s t : List Char) (v : Int) (r : List Char)
    (h : scanLL s = some (v, r)) (ht : ∀ c, (r ++ t).head? = some c → isdigit c = false) :
    scanLL (s ++ t) = some (v, r ++ t) := by
  have h1 : s.dropWhile isspace ≠ [] := by
    intro e
    unfold scanLL at h
    rw [e] at h
    simp at h
  have e1 : (s ++ t).dropWhile isspace = s.dropWhile isspace ++ t := by
    rw [List.dropWhile_append, if_neg (by simpa using h1)]
  have e2 : (s.dropWhile isspace ++ t).head? = (s.dropWhile isspace).head? := by
    cases hd : s.dropWhile isspace with
    | nil => exact absurd hd h1
    | cons a l => rfl
  have e3 : (s.dropWhile isspace ++ t).tail = (s.dropWhile isspace).tail ++ t :=
    List.tail_append_of_ne_nil h1
  have e4 : (if (s.dropWhile isspace).head? = some '-' ∨ (s.dropWhile isspace).head? = some '+'
      then (s.dropWhile isspace).tail ++ t else s.dropWhile isspace ++ t)
      = (if (s.dropWhile isspace).head? = some '-' ∨ (s.dropWhile isspace).head? = some '+'
          then (s.dropWhile isspace).tail else s.dropWhile isspace) ++ t := by
    split <;> rfl
  unfold scanLL at h ⊢
  simp only at h ⊢
  rw [e1, e2, e3, e4]
  generalize (if (s.dropWhile isspace).head? = some '-' ∨ (s.dropWhile isspace).head? = some '+'
    then (s.dropWhile isspace).tail else s.dropWhile isspace) = s2 at h ⊢
  by_cases hds : (s2.takeWhile isdigit).isEmpty = true
  · rw [if_pos hds] at h
    exact absurd h (by simp)
  · rw [if_neg hds] at h
    simp only [Option.some.injEq, Prod.mk.injEq] at h
    obtain ⟨hv, hr⟩ := h
    rw [← hr] at ht
    obtain ⟨k1, k2⟩ := takeWhile_dropWhile_append isdigit _ t ht
    rw [k1, k2, if_neg hds, hv, hr]

theorem cstr_append (line t : List Char) (h : ∀ c ∈ line, c ≠ '\x00') :
    cstr (line ++ t) = line ++ cstr t := by
  unfold cstr
  exact List.takeWhile_append_of_pos (fun a ha => by simpa using h a ha)

theorem cstr_of_no_nul (line : List Char) (h : ∀ c ∈ line, c ≠ '\x00') : cstr line = line := by
  have := cstr_append line [] h
  simpa [cstr] using this

theorem cstr_head (t : List Char) (h : ∀ c, t.head? = some c → isdigit c = false) :
    ∀ c, (cstr t).head? = some c → isdigit c = false := by
  intro c hc
  cases t with
  | nil => simp [cstr] at hc
  | cons a t =>
    unfold cstr at hc
    rw [List.takeWhile_cons] at hc
    split at hc
    · simp only [List.head?_cons, Option.some.injEq] at hc
      subst hc
      exact h a rfl
    · simp at hc

/-- Text added after a line from which `sscanf` reads two integers does not
change what it reads, as long as the line holds no NUL and the added text does
not start with a digit. -/
theorem sscanf_append (line t : List Char) (u v : Int) (hnul : ∀ c ∈ line, c ≠ '\x00')
    (h : sscanf line = some (u, v)) (ht : ∀ c, t.head? = some c → isdigit c = false) :
    sscanf (line ++ t) = some (u, v) := by
  unfold sscanf at h ⊢
  rw [cstr_append line t hnul]
  rw [cstr_of_no_nul line hnul] at h
  have ht2 := cstr_head t ht
  cases h1 : scanLL line with
  | none => rw [h1] at h; exact absurd h (by simp)
  | some ur =>
    obtain ⟨u1, rest⟩ := ur
    rw [h1] at h
    simp only at h
    cases h2 : scanLL rest with
    | none => rw [h2] at h; exact absurd h (by simp)
    | some vr =>
      obtain ⟨v1, r2⟩ := vr
      rw [h2] at h
      simp only [Option.some.injEq, Prod.mk.injEq] at h
      have hrest : rest ≠ [] := scanLL_ne_nil rest v1 r2 h2
      have a1 : scanLL (line ++ cstr t) = some (u1, rest ++ cstr t) := by
        apply scanLL_append line (cstr t) u1 rest h1
        intro c hc
        cases hre : rest with
        | nil => exact absurd hre hrest
        | cons a l =>
          rw [hre] at hc
          simp only [List.cons_append, List.head?_cons, Option.some.injEq] at hc
          subst hc
          exact scanLL_rest_head line u1 rest h1 a (by rw [hre]; rfl)
      have a2 : scanLL (rest ++ cstr t) = some (v1, r2 ++ cstr t) := by
        apply scanLL_append rest (cstr t) v1 r2 h2
        intro c hc
        cases hre : r2 with
        | nil =>
          rw [hre] at hc
          exact ht2 c hc
        | cons a l =>
          rw [hre] at hc
          simp only [List.cons_append, List.head?_cons, Option.some.injEq] at hc
          subst hc
          exact scanLL_rest_head rest v1 r2 h2 a (by rw [hre]; rfl)
      rw [a1]
      simp only
      rw [a2]
      simp only [Option.some.injEq, Prod.mk.injEq]
      exact h

theorem is_comment_or_blank_append (line t : List Char) (hnul : ∀ c ∈ line, c ≠ '\x00')
    (h : is_comment_or_blank line = false) : is_comment_or_blank (line ++ t) = false := by
  unfold is_comment_or_blank at h ⊢
  rw [cstr_append line t hnul]
  rw [cstr_of_no_nul line hnul] at h
  rw [List.dropWhile_append]
  cases hd : line.dropWhile fun c => decide (c = ' ' ∨ c = '\t') with
  | nil => rw [hd] at h; simp at h
  | cons a l =>
    rw [hd] at h
    simpa using h

/-- C17 (as stated, refuted): the lines `1 2 3` and `1 2 abc` are neither
comment nor blank, `sscanf` returns 2 on them with the pair `(1, 2)`, and the
scan step records that pair and moves `min_id` and `max_id`; the input `1 2 3`
compiles to a graph with the edge from 0 to 1. -/
theorem extra_text_recorded :
    is_comment_or_blank "1 2 3\n".toList = false ∧
    sscanf "1 2 3\n".toList = some (1, 2) ∧
    scanStep false { edges := [], min_id := INT_MAX, max_id := -1 } "1 2 3\n".toList
      = .ok ⟨[(1, 2)], 1, 2⟩ ∧
    is_comment_or_blank "1 2 abc\n".toList = false ∧
    sscanf "1 2 abc\n".toList = some (1, 2) ∧
    scanStep false { edges := [], min_id := INT_MAX, max_id := -1 } "1 2 abc\n".toList
      = .ok ⟨[(1, 2)], 1, 2⟩ ∧
    compile (fun _ => true) "1 2 3\n".toList false = .ok ⟨2, 1, [0, 1, 1], [1], none⟩ := by
  decide

/-- C17 (amended): for every line that is neither comment nor blank: when
`sscanf` reads fewer than two integers the line is skipped without error and
leaves the working set, `min_id` and `max_id` as they are; the line changes
them only if `sscanf` reads two integers, distinct and in `0 .. INT_MAX`, and
then it records that pair; and what follows the second integer is not looked
at: the line with any text added that does not start with a digit does what
the line does. -/
theorem scanStep_permissive (sym : Bool) (st : ScanState) (line : List Char)
    (hc : is_comment_or_blank line = false) :
    (sscanf line = none → scanStep sym st line = .ok st) ∧
    (∀ st1, scanStep sym st line = .ok st1 → st1 ≠ st →
      ∃ u v, sscanf line = some (u, v) ∧ u ≠ v ∧ ¬ isFatal (u, v)) ∧
    (∀ u v, sscanf line = some (u, v) → u ≠ v → ¬ isFatal (u, v) →
      scanStep sym st line
        = .ok { edges := st.edges ++ (u, v) :: (if sym then [(v, u)] else [])
                min_id := min st.min_id (min u v)
                max_id := max st.max_id (max u v) }) ∧
    (∀ t, (∀ c ∈ line, c ≠ '\x00') → (∃ p, sscanf line = some p) →
      (∀ c, t.head? = some c → isdigit c = false) →
      scanStep sym st (line ++ t) = scanStep sym st line) := by
  have hpos : ∀ u v, sscanf line = some (u, v) → u ≠ v → ¬ isFatal (u, v) →
      scanStep sym st line
        = .ok { edges := st.edges ++ (u, v) :: (if sym then [(v, u)] else [])
                min_id := min st.min_id (min u v)
                max_id := max st.max_id (max u v) } := by
    intro u v hs hne hnf
    unfold isFatal at hnf
    simp only at hnf
    unfold scanStep
    simp only [hc, hs, Bool.false_eq_true, if_false]
    rw [if_neg (by omega), if_neg (by omega), if_neg hne]
  refine ⟨fun hs => ?_, fun st1 h1 hne => ?_, hpos, fun t hnul hp ht => ?_⟩
  · unfold scanStep
    simp only [hc, hs, Bool.false_eq_true, if_false]
  · cases hs : sscanf line with
    | none =>
      unfold scanStep at h1
      simp only [hc, hs, Bool.false_eq_true, if_false, Except.ok.injEq] at h1
      exact absurd h1.symm hne
    | some p =>
      obtain ⟨u, v⟩ := p
      refine ⟨u, v, rfl, ?_, ?_⟩
      · intro e
        subst e
        unfold scanStep at h1
        simp only [hc, hs, Bool.false_eq_true, if_false, if_true] at h1
        split at h1
        · exact absurd h1 (by simp)
        · split at h1
          · exact absurd h1 (by simp)
          · simp only [Except.ok.injEq] at h1
            exact hne h1.symm
      · intro hf
        unfold isFatal at hf
        simp only at hf
        unfold scanStep at h1
        simp only [hc, hs, Bool.false_eq_true, if_false] at h1
        by_cases h3 : u < 0 ∨ v < 0
        · rw [if_pos h3] at h1
          exact absurd h1 (by simp)
        · rw [if_neg h3, if_pos (by omega)] at h1
          exact absurd h1 (by simp)
  · obtain ⟨p, hp⟩ := hp
    have e1 := sscanf_append line t p.1 p.2 hnul hp ht
    have e2 := is_comment_or_blank_append line t hnul hc
    unfold scanStep
    rw [e1, e2, hc, hp]

theorem scanStep_permissive_witness :
    is_comment_or_blank "4 7".toList = false ∧
    scanStep true { edges := [], min_id := INT_MAX, max_id := -1 } ("4 7".toList ++ " 9 x\n".toList)
      = scanStep true { edges := [], min_id := INT_MAX, max_id := -1 } "4 7".toList ∧
    scanStep true { edges := [], min_id := INT_MAX, max_id := -1 } "4 7".toList
      = .ok ⟨[(4, 7), (7, 4)], 4, 7⟩ :=
  ⟨by decide,
    (scanStep_permissive true { edges := [], min_id := INT_MAX, max_id := -1 } "4 7".toList
      (by decide)).2.2.2 " 9 x\n".toList (by decide) ⟨(4, 7), by decide⟩ (by decide),
    by decide⟩

/-! ## The defensive exits -/

/-- The construction from the vector of edges ends with `return 7`, `return 8`,
the overflow of the loop counter, or a graph, when the ids lie between 0 and
`max_id`: the range checks of the two passes over the edges never fire. -/
theorem buildCSR_cases (malloc : Nat → Bool) (E : List (Int × Int)) (M : Int)
    (hr : ∀ p ∈ E, 0 ≤ p.1 ∧ p.1 ≤ M ∧ 0 ≤ p.2 ∧ p.2 ≤ M) (hM : M ≤ INT_MAX) (hM0 : 0 ≤ M) :
    buildCSR malloc E M = .error (.code 7) ∨ buildCSR malloc E M = .error (.code 8) ∨
    buildCSR malloc E M = .error .undefined ∨ ∃ g, buildCSR malloc E M = .ok g := by
  unfold INT_MAX at hM
  have hS : ∀ p ∈ unique (sort E), 0 ≤ p.1 ∧ p.1 ≤ M ∧ 0 ≤ p.2 ∧ p.2 ≤ M := by
    intro p hp
    exact hr p ((mem_sort E p).1 ((mem_unique _ p).1 hp))
  unfold buildCSR
  simp only
  split
  · exact Or.inl rfl
  by_cases hmax : M = 2147483647
  · subst hmax
    have e1 : (toBits (wrapInt (2147483647 + 1)) + 1) % 2 ^ 64 = 18446744071562067969 := by
      decide
    have e2 : calloc malloc 18446744071562067969 8 = false := by
      unfold calloc
      rw [if_neg (by decide)]
    rw [e1, e2]
    exact Or.inr (Or.inl (by simp))
  have hw : wrapInt (M + 1) = M + 1 := by unfold wrapInt; omega
  rw [hw]
  obtain ⟨n, hn⟩ : ∃ n : Nat, (n : Int) = M + 1 := ⟨(M + 1).toNat, by omega⟩
  have hnm : (toBits (M + 1) + 1) % 2 ^ 64 = n + 1 := by
    unfold toBits; omega
  rw [hnm]
  split
  · exact Or.inr (Or.inl rfl)
  obtain ⟨counts, hc, hplen, hpget⟩ := offsets_closed_form n (unique (sort E))
    (fun p hp => by have := hS p hp; omega)
  rw [← hn, hc]
  simp only
  split
  · exact Or.inr (Or.inr (Or.inl rfl))
  have hfill := fillAdjacency_ok n (unique (sort E))
    (fun p hp => by have := hS p hp; omega) (fun p hp => by have := hS p hp; omega)
    (strict_imp_src_le (unique_strict _ (sort_sorted E))) (unique (sort E)) []
    ((prefixSum (n : Int) counts).take n)
    (List.replicate (unique (sort E)).length 0) (by simp) (by simp; omega) (by simp)
    (fun i hi => by
      rw [getD_take _ _ _ hi, hpget i (by omega), countAt_nil, add_zero])
    (by simp)
  rw [Int.toNat_ofNat, Int.toNat_ofNat, hfill]
  exact Or.inr (Or.inr (Or.inr ⟨_, rfl⟩))

/-- The variables after the re-basing, for an input without a fatal pair and
with an accepted pair: `min_id` is not negative and every id lies between 0
and `max_id`, which is at most `INT_MAX`. -/
theorem rebased_range (input : List Char) (sym : Bool)
    (hnf : ∀ p ∈ parsedPairs input, ¬ isFatal p) (hne : acceptedPairs input ≠ []) :
    0 ≤ (rebased (scanned input sym)).min_id ∧
    (∀ p ∈ (rebased (scanned input sym)).edges,
      0 ≤ p.1 ∧ p.1 ≤ (rebased (scanned input sym)).max_id ∧
      0 ≤ p.2 ∧ p.2 ≤ (rebased (scanned input sym)).max_id) ∧
    (rebased (scanned input sym)).max_id ≤ INT_MAX ∧
    0 ≤ (rebased (scanned input sym)).max_id := by
  have hA : ∀ p ∈ acceptedPairs input,
      0 ≤ p.1 ∧ p.1 ≤ INT_MAX ∧ 0 ≤ p.2 ∧ p.2 ≤ INT_MAX := by
    intro p hp
    have := hnf p ((mem_dropLoops _ p).1 hp).1
    unfold isFatal at this
    omega
  have hW : ∀ p ∈ workingSet sym (acceptedPairs input),
      ∃ q ∈ acceptedPairs input, (p.1 = q.1 ∧ p.2 = q.2) ∨ (p.1 = q.2 ∧ p.2 = q.1) := by
    intro p hp
    rcases (mem_workingSet sym _ p).1 hp with e | ⟨_, e⟩
    · exact ⟨p, e, Or.inl ⟨rfl, rfl⟩⟩
    · exact ⟨_, e, Or.inr ⟨rfl, rfl⟩⟩
  obtain ⟨a, ha⟩ := List.exists_mem_of_ne_nil _ hne
  have hmaxle : foldMax (-1) (acceptedPairs input) ≤ INT_MAX :=
    foldMax_le INT_MAX (-1) _ (by decide) (fun p hp => by have := hA p hp; omega)
  have hmin0 : 0 ≤ foldMin INT_MAX (acceptedPairs input) :=
    foldMin_ge 0 INT_MAX _ (by decide) (fun p hp => by have := hA p hp; omega)
  have ha1 := hA a ha
  have ha2 := foldMax_ge_mem (-1) _ a ha
  have ha3 := foldMin_le_mem INT_MAX _ a ha
  unfold rebased scanned
  by_cases hm : foldMin INT_MAX (acceptedPairs input) = 1
  · simp only [hm, if_true]
    refine ⟨le_refl 0, fun p hp => ?_, by omega, by omega⟩
    obtain ⟨q0, hq0, rfl⟩ := List.mem_map.1 hp
    obtain ⟨q, hq, e⟩ := hW q0 hq0
    have h1 := foldMin_le_mem INT_MAX _ q hq
    have h2 := foldMax_ge_mem (-1) _ q hq
    simp only
    omega
  · simp only [hm, if_false]
    refine ⟨hmin0, fun p hp => ?_, hmaxle, by omega⟩
    obtain ⟨q, hq, e⟩ := hW p hp
    have h1 := hA q hq
    have h2 := foldMax_ge_mem (-1) _ q hq
    omega

/-- The ways the converter ends: a fatal line (`return 3`, `return 4`), no edge
(`return 5`), too many edges (`return 7`), a refused allocation (`return 8`),
the overflow of the loop counter, or a graph. -/
theorem compile_cases (malloc : Nat → Bool) (input : List Char) (sym : Bool) :
    compile malloc input sym = .error (.code 3) ∨ compile malloc input sym = .error (.code 4) ∨
    compile malloc input sym = .error (.code 5) ∨ compile malloc input sym = .error (.code 7) ∨
    compile malloc input sym = .error (.code 8) ∨ compile malloc input sym = .error .undefined ∨
    ∃ g, compile malloc input sym = .ok g := by
  by_cases hf : ∃ p ∈ parsedPairs input, isFatal p
  · rcases compile_fatal malloc input sym hf with h | h
    · exact Or.inl h
    · exact Or.inr (Or.inl h)
  · have hnf : ∀ p ∈ parsedPairs input, ¬ isFatal p := fun p hp hp2 => hf ⟨p, hp, hp2⟩
    have hc : compile malloc input sym = buildGraph malloc (scanned input sym) :=
      compile_eq_buildGraph malloc input sym hnf
    rw [hc, buildGraph_rebased]
    by_cases he : (scanned input sym).edges.isEmpty = true
    · rw [if_pos he]
      exact Or.inr (Or.inr (Or.inl rfl))
    · have hne : acceptedPairs input ≠ [] := by
        intro e
        apply he
        simp [scanned, e, workingSet]
      obtain ⟨h0, hr, hM, hM0⟩ := rebased_range input sym hnf hne
      rw [if_neg he, if_neg (by omega)]
      rcases buildCSR_cases malloc _ _ hr hM hM0 with h | h | h | h
      · exact Or.inr (Or.inr (Or.inr (Or.inl h)))
      · exact Or.inr (Or.inr (Or.inr (Or.inr (Or.inl h))))
      · exact Or.inr (Or.inr (Or.inr (Or.inr (Or.inr (Or.inl h)))))
      · exact Or.inr (Or.inr (Or.inr (Or.inr (Or.inr (Or.inr h)))))

/-- The three defensive exits `return 6`, `return 9` and `return 10` are taken
on no input. -/
theorem compile_never_defensive (malloc : Nat → Bool) (input : List Char) (sym : Bool) :
    compile malloc input sym ≠ .error (.code 6) ∧ compile malloc input sym ≠ .error (.code 9) ∧
    compile malloc input sym ≠ .error (.code 10) := by
  rcases compile_cases malloc input sym with h | h | h | h | h | h | ⟨g, h⟩ <;> rw [h] <;> simp

/-- C18 (the code at the failing input): the line `0 2147483646` has its ids in
`0 .. INT_MAX - 1` and passes the scan with a pair recorded; the node count is
`INT_MAX`, and when the allocator grants the buffers the run reaches the
prefix-sum loop `for (int i = 1; i <= nodes; i++)`, whose counter overflows: the
run does not end with `return 7` or `return 8`, and not with a graph. -/
theorem loop_counter_overflows :
    (∀ p ∈ parsedPairs "0 2147483646\n".toList,
      0 ≤ p.1 ∧ p.1 ≤ INT_MAX - 1 ∧ 0 ≤ p.2 ∧ p.2 ≤ INT_MAX - 1) ∧
    scanLoop false (fgetsLines "0 2147483646\n".toList [])
        { edges := [], min_id := INT_MAX, max_id := -1 }
      = .ok ⟨[(0, 2147483646)], 0, 2147483646⟩ ∧
    wrapInt (2147483646 + 1) = INT_MAX ∧
    compile (fun _ => true) "0 2147483646\n".toList false = .error .undefined := by
  decide

/-! ## Independence of order and multiplicity -/

theorem foldMin_ext (m : Int) (A B : List (Int × Int)) (h : ∀ p, p ∈ A ↔ p ∈ B) :
    foldMin m A = foldMin m B := by
  apply le_antisymm
  · exact foldMin_ge _ m B (foldMin_le_init m A)
      (fun p hp => foldMin_le_mem m A p ((h p).2 hp))
  · exact foldMin_ge _ m A (foldMin_le_init m B)
      (fun p hp => foldMin_le_mem m B p ((h p).1 hp))

theorem foldMax_ext (m : Int) (A B : List (Int × Int)) (h : ∀ p, p ∈ A ↔ p ∈ B) :
    foldMax m A = foldMax m B := by
  apply le_antisymm
  · exact foldMax_le _ m A (foldMax_ge_init m B)
      (fun p hp => foldMax_ge_mem m B p ((h p).1 hp))
  · exact foldMax_le _ m B (foldMax_ge_init m A)
      (fun p hp => foldMax_ge_mem m A p ((h p).2 hp))

/-- Two strictly sorted lists with the same members are equal. -/
theorem strict_ext (l1 l2 : List (Int × Int)) (h1 : l1.Pairwise pairLT)
    (h2 : l2.Pairwise pairLT) (h : ∀ p, p ∈ l1 ↔ p ∈ l2) : l1 = l2 := by
  refine List.eq_of_perm_of_sorted (r := pairLE) ?_ (h1.imp pairLE_of_lt) (h2.imp pairLE_of_lt)
  rw [List.perm_ext_iff_of_nodup (nodup_of_strict _ h1) (nodup_of_strict _ h2)]
  exact h

theorem unique_sort_ext (E1 E2 : List (Int × Int)) (h : ∀ p, p ∈ E1 ↔ p ∈ E2) :
    unique (sort E1) = unique (sort E2) := by
  apply strict_ext _ _ (unique_strict _ (sort_sorted E1)) (unique_strict _ (sort_sorted E2))
  intro p
  rw [mem_unique, mem_unique, mem_sort, mem_sort]
  exact h p

theorem buildCSR_congr (malloc : Nat → Bool) (E1 E2 : List (Int × Int)) (M : Int)
    (h : unique (sort E1) = unique (sort E2)) : buildCSR malloc E1 M = buildCSR malloc E2 M := by
  unfold buildCSR
  rw [h]

/-- The part of `main` after the scan gives the same result on two states with
the same `min_id`, the same `max_id` and the same pairs up to order and
repetition. -/
theorem buildGraph_ext (malloc : Nat → Bool) (s1 s2 : ScanState)
    (hmin : s1.min_id = s2.min_id) (hmax : s1.max_id = s2.max_id)
    (h : ∀ p, p ∈ s1.edges ↔ p ∈ s2.edges) : buildGraph malloc s1 = buildGraph malloc s2 := by
  have hemp : s1.edges.isEmpty = s2.edges.isEmpty := by
    cases h1 : s1.edges with
    | nil =>
      cases h2 : s2.edges with
      | nil => rfl
      | cons b t =>
        have := (h b).2 (by rw [h2]; simp)
        rw [h1] at this
        exact absurd this (List.not_mem_nil b)
    | cons a t =>
      cases h2 : s2.edges with
      | nil =>
        have := (h a).1 (by rw [h1]; simp)
        rw [h2] at this
        exact absurd this (List.not_mem_nil a)
      | cons b t2 => rfl
  have hmap : ∀ p, p ∈ s1.edges.map (fun e => (e.1 - 1, e.2 - 1))
      ↔ p ∈ s2.edges.map (fun e => (e.1 - 1, e.2 - 1)) := by
    intro p
    rw [List.mem_map, List.mem_map]
    constructor
    · rintro ⟨q, hq, e⟩
      exact ⟨q, (h q).1 hq, e⟩
    · rintro ⟨q, hq, e⟩
      exact ⟨q, (h q).2 hq, e⟩
  rw [buildGraph_rebased, buildGraph_rebased, hemp]
  unfold rebased
  rw [hmin]
  by_cases hm : s2.min_id = 1
  · simp only [hm, if_true, hmax]
    rw [buildCSR_congr malloc _ _ _ (unique_sort_ext _ _ hmap)]
  · simp only [hm, if_false, hmax]
    rw [hmin, buildCSR_congr malloc _ _ _ (unique_sort_ext _ _ h)]

theorem workingSet_ext (sym : Bool) (A B : List (Int × Int)) (h : ∀ p, p ∈ A ↔ p ∈ B) :
    ∀ p, p ∈ workingSet sym A ↔ p ∈ workingSet sym B := by
  intro p
  rw [mem_workingSet, mem_workingSet, h p, h (p.2, p.1)]

/-- C19: two inputs none of whose lines is fatal and whose sets of accepted
pairs are equal compile, under the same option, to the same result, hence to
the same node count, edge count, offsets and adjacency; in particular when the
two inputs have the same lines up to order and repetition. -/
theorem compile_set_invariant (malloc : Nat → Bool) (input1 input2 : List Char) (sym : Bool)
    (h1 : ∀ p ∈ parsedPairs input1, ¬ isFatal p) (h2 : ∀ p ∈ parsedPairs input2, ¬ isFatal p) :
    ((∀ p, p ∈ acceptedPairs input1 ↔ p ∈ acceptedPairs input2) →
      compile malloc input1 sym = compile malloc input2 sym) ∧
    ((∀ l, l ∈ fgetsLines input1 [] ↔ l ∈ fgetsLines input2 []) →
      compile malloc input1 sym = compile malloc input2 sym) := by
  have main : (∀ p, p ∈ acceptedPairs input1 ↔ p ∈ acceptedPairs input2) →
      compile malloc input1 sym = compile malloc input2 sym := by
    intro h
    rw [compile_eq_buildGraph malloc input1 sym h1, compile_eq_buildGraph malloc input2 sym h2]
    exact buildGraph_ext malloc _ _ (foldMin_ext _ _ _ h) (foldMax_ext _ _ _ h)
      (workingSet_ext sym _ _ h)
  refine ⟨main, fun hl => main fun p => ?_⟩
  unfold acceptedPairs
  rw [mem_dropLoops, mem_dropLoops]
  unfold parsedPairs
  rw [List.mem_filterMap, List.mem_filterMap]
  constructor
  · rintro ⟨⟨l, hl1, hp⟩, hne⟩
    exact ⟨⟨l, (hl l).1 hl1, hp⟩, hne⟩
  · rintro ⟨⟨l, hl1, hp⟩, hne⟩
    exact ⟨⟨l, (hl l).2 hl1, hp⟩, hne⟩

theorem compile_set_invariant_witness :
    (∀ p ∈ parsedPairs "0 1\n1 2\n".toList, ¬ isFatal p) ∧
    (∀ p ∈ parsedPairs "1 2\n0 1\n1 2\n".toList, ¬ isFatal p) ∧
    compile (fun _ => true) "0 1\n1 2\n".toList true
      = compile (fun _ => true) "1 2\n0 1\n1 2\n".toList true :=
  ⟨by decide, by decide,
    (compile_set_invariant (fun _ => true) "0 1\n1 2\n".toList "1 2\n0 1\n1 2\n".toList true
      (by decide) (by decide)).1 (by
        have e1 : acceptedPairs "0 1\n1 2\n".toList = [(0, 1), (1, 2)] := by decide
        have e2 : acceptedPairs "1 2\n0 1\n1 2\n".toList = [(1, 2), (0, 1), (1, 2)] := by
          decide
        intro p
        rw [e1, e2]
        simp only [List.mem_cons, List.mem_singleton, List.not_mem_nil, or_false]
        tauto)⟩

/-! ## Symmetrization -/

theorem workingSet_false (A : List (Int × Int)) : workingSet false A = A := by
  induction A with
  | nil => rfl
  | cons p t ih => rw [workingSet_cons, ih]; rfl

theorem workingSet_true (A : List (Int × Int)) : workingSet true A = withReversed A := rfl

theorem withReversed_cons (p : Int × Int) (t : List (Int × Int)) :
    withReversed (p :: t) = p :: (p.2, p.1) :: withReversed t := by
  simp [withReversed, List.flatMap_cons]

theorem dropLoops_withReversed (l : List (Int × Int)) :
    dropLoops (withReversed l) = withReversed (dropLoops l) := by
  induction l with
  | nil => rfl
  | cons p t ih =>
    rw [withReversed_cons]
    unfold dropLoops at ih ⊢
    by_cases h : p.1 = p.2
    · have h2 : ¬ (p.2, p.1).1 ≠ (p.2, p.1).2 := by simp only; omega
      rw [List.filter_cons_of_neg (by simpa using h), List.filter_cons_of_neg (by simpa using h2),
        List.filter_cons_of_neg (by simpa using h), ih]
    · have h2 : (p.2, p.1).1 ≠ (p.2, p.1).2 := by simp only; omega
      rw [List.filter_cons_of_pos (by simpa using h), List.filter_cons_of_pos (by simpa using h2),
        List.filter_cons_of_pos (by simpa using h), ih, withReversed_cons]

theorem foldMin_withReversed (m : Int) (A : List (Int × Int)) :
    foldMin m (withReversed A) = foldMin m A := by
  induction A generalizing m with
  | nil => rfl
  | cons p t ih =>
    rw [withReversed_cons, foldMin_cons, foldMin_cons, foldMin_cons, ih]
    congr 1
    simp only
    omega

theorem foldMax_withReversed (m : Int) (A : List (Int × Int)) :
    foldMax m (withReversed A) = foldMax m A := by
  induction A generalizing m with
  | nil => rfl
  | cons p t ih =>
    rw [withReversed_cons, foldMax_cons, foldMax_cons, foldMax_cons, ih]
    congr 1
    simp only
    omega

theorem mem_withReversed (A : List (Int × Int)) (p : Int × Int) :
    p ∈ withReversed A ↔ p ∈ A ∨ (p.2, p.1) ∈ A := by
  rw [← workingSet_true, mem_workingSet]
  simp

/-- A list of pairs without repetition and without loops that holds the
reverse of each of its pairs has an even length. -/
theorem even_length_of_symmetric (S : List (Int × Int)) (hnd : S.Nodup)
    (hsym : ∀ p ∈ S, (p.2, p.1) ∈ S) (hnl : ∀ p ∈ S, p.1 ≠ p.2) : Even S.length := by
  have hsplit := List.length_eq_countP_add_countP (fun p : Int × Int => decide (p.1 < p.2)) S
  rw [List.countP_eq_length_filter, List.countP_eq_length_filter] at hsplit
  have hperm : ((S.filter fun p => decide (p.1 < p.2)).map fun p => (p.2, p.1)).Perm
      (S.filter fun p => decide ¬ (decide (p.1 < p.2) = true)) := by
    rw [List.perm_ext_iff_of_nodup
      ((hnd.filter _).map (fun a b hab => by
        simp only [Prod.mk.injEq] at hab
        exact Prod.ext hab.2 hab.1))
      (hnd.filter _)]
    intro q
    rw [List.mem_map, List.mem_filter]
    constructor
    · rintro ⟨p, hp, rfl⟩
      obtain ⟨hp1, hp2⟩ := List.mem_filter.1 hp
      simp only [decide_eq_true_eq] at hp2
      refine ⟨hsym p hp1, ?_⟩
      simp only [decide_eq_true_eq, decide_not, Bool.not_eq_true', decide_eq_false_iff_not]
      omega
    · rintro ⟨hq1, hq2⟩
      simp only [decide_eq_true_eq, decide_not, Bool.not_eq_true', decide_eq_false_iff_not]
        at hq2
      have := hnl q hq1
      exact ⟨(q.2, q.1), List.mem_filter.2 ⟨hsym q hq1, by simp only [decide_eq_true_eq]; omega⟩,
        rfl⟩
  have hlen := hperm.length_eq
  rw [List.length_map] at hlen
  exact ⟨_, by rw [hsplit, ← hlen]⟩

/-- C20: for every input none of whose lines is fatal: compiling it with the
option on gives the result of compiling, with the option off, the input in
which every line `u v` is followed by the line `v u`; in every graph compiled
with the option on, `j` is a neighbour of `i` exactly when `i` is a neighbour
of `j`, and the edge count is even; and when the accepted pairs already hold
the reverse of each of them, the option changes nothing. -/
theorem symmetrize_eq_reversal (malloc : Nat → Bool) (input input2 : List Char)
    (hnf : ∀ p ∈ parsedPairs input, ¬ isFatal p)
    (hrev : parsedPairs input2 = withReversed (parsedPairs input)) :
    compile malloc input true = compile malloc input2 false ∧
    (∀ g, compile malloc input true = .ok g →
      (∀ i j : Nat, (i : Int) < g.nodes → (j : Int) < g.nodes →
        ((j : Int) ∈ neighbours g i ↔ (i : Int) ∈ neighbours g j)) ∧
      Even g.edges) ∧
    ((∀ p ∈ acceptedPairs input, (p.2, p.1) ∈ acceptedPairs input) →
      compile malloc input true = compile malloc input false) := by
  refine ⟨?_, fun g hg => ?_, fun hsym => ?_⟩
  · have hnf2 : ∀ p ∈ parsedPairs input2, ¬ isFatal p := by
      intro p hp
      rw [hrev, mem_withReversed] at hp
      rcases hp with h | h
      · exact hnf p h
      · have := hnf _ h
        unfold isFatal at this ⊢
        simp only at this
        omega
    have hA2 : acceptedPairs input2 = withReversed (acceptedPairs input) := by
      unfold acceptedPairs
      rw [hrev, dropLoops_withReversed]
    rw [compile_eq_buildGraph malloc input true hnf, compile_eq_buildGraph malloc input2 false hnf2,
      hA2, workingSet_false, workingSet_true, foldMin_withReversed, foldMax_withReversed]
  · obtain ⟨_, _, n, _, _, hc, hr⟩ := compile_ok malloc input true g hg
    have hst := finalEdges_strict input true
    have hs := strict_imp_src_le hst
    have hn : g.nodes = n := hc.1
    have hswap : ∀ p, p ∈ finalEdges input true → (p.2, p.1) ∈ finalEdges input true := by
      intro p hp
      rw [mem_finalEdges, mem_workingSet] at hp ⊢
      rcases hp with h | ⟨_, h⟩
      · exact Or.inr ⟨rfl, h⟩
      · exact Or.inl h
    constructor
    · intro i j hi hj
      rw [mem_neighbours g n _ hc hs i (by omega), mem_neighbours g n _ hc hs j (by omega)]
      exact ⟨fun h => hswap _ h, fun h => hswap _ h⟩
    · rw [hc.2.1]
      exact (Int.even_coe_nat _).2 (even_length_of_symmetric _ (nodup_of_strict _ hst)
        (fun p hp => hswap p hp) (finalEdges_no_loop input true))
  · rw [compile_eq_buildGraph malloc input true hnf, compile_eq_buildGraph malloc input false hnf]
    refine buildGraph_ext malloc (scanned input true) (scanned input false) rfl rfl fun p => ?_
    unfold scanned
    simp only
    rw [workingSet_false, mem_workingSet]
    constructor
    · rintro (h | ⟨_, h⟩)
      · exact h
      · exact hsym _ h
    · intro h
      exact Or.inl h

theorem symmetrize_eq_reversal_witness :
    (∀ p ∈ parsedPairs "0 1\n1 2\n".toList, ¬ isFatal p) ∧
    parsedPairs "0 1\n1 0\n1 2\n2 1\n".toList = withReversed (parsedPairs "0 1\n1 2\n".toList) ∧
    compile (fun _ => true) "0 1\n1 2\n".toList true
      = compile (fun _ => true) "0 1\n1 0\n1 2\n2 1\n".toList false ∧
    compile (fun _ => true) "0 1\n1 2\n".toList true
      = .ok ⟨3, 4, [0, 1, 3, 4], [1, 0, 2, 1], none⟩ :=
  ⟨by decide, by decide,
    (symmetrize_eq_reversal (fun _ => true) "0 1\n1 2\n".toList "0 1\n1 0\n1 2\n2 1\n".toList
      (by decide) (by decide)).1,
    by decide⟩

end ECL
